import Mathlib

/-!
# Verification of the draupnir HTTP router and WebSocket engine

Shallow embedding of the core of the `kashari/draupnir` Go repository:

* the compressed-prefix (radix) tree of `tree` (router.go, package tree):
  `Node`, `Tree`, `Insert`, `Get`/`findNode`, `Delete`, `Walk`;
* the pattern matcher and route resolution of `Router.ServeHTTP` (router.go);
* the WebSocket frame codec `writeFrame`/`readFrame`, the handshake accept
  key `generateAcceptKey`, and the connection close/send state machine (ws.go);
* the `RateLimiter` and `WorkerPool` admission components.

Go strings are byte sequences; keys are embedded as `List Nat` (each element a
byte value), Go maps keyed by a byte as association lists with distinct keys,
and machine integers as `Nat`/`Int` with explicit wrap-around where the code
can overflow.
-/

set_option autoImplicit false

namespace Draupnir

/-! ## Radix tree (`package tree`, router.go lines 421-765)

`Node` embeds the Go struct

```
type Node struct { key string; value any; hasValue bool; children map[byte]*Node }
```

The pair `value any` / `hasValue bool` is always written together in the
source, so it is embedded as a single `Option V`.  The `children` Go map is
embedded as an association list from the first byte to the child node.
-/

inductive Node (V : Type) : Type where
  | mk (key : List Nat) (val : Option V) (children : List (Nat × Node V)) : Node V
deriving Repr

namespace Node

variable {V : Type}

def key : Node V → List Nat
  | .mk k _ _ => k

def val : Node V → Option V
  | .mk _ v _ => v

def children : Node V → List (Nat × Node V)
  | .mk _ _ cs => cs

@[simp] theorem key_mk (k : List Nat) (v : Option V) (cs : List (Nat × Node V)) :
    (Node.mk k v cs).key = k := rfl

@[simp] theorem val_mk (k : List Nat) (v : Option V) (cs : List (Nat × Node V)) :
    (Node.mk k v cs).val = v := rfl

@[simp] theorem children_mk (k : List Nat) (v : Option V) (cs : List (Nat × Node V)) :
    (Node.mk k v cs).children = cs := rfl

theorem eta (n : Node V) : Node.mk n.key n.val n.children = n := by
  cases n <;> rfl

end Node

variable {V : Type}

/-- Go map read `m[b]` on a `map[byte]*Node`. -/
def lookupChild (b : Nat) : List (Nat × Node V) → Option (Node V)
  | [] => none
  | (b', c) :: rest => if b' = b then some c else lookupChild b rest

/-- Go map write `m[b] = c` on a `map[byte]*Node`. -/
def setChild (b : Nat) (c : Node V) : List (Nat × Node V) → List (Nat × Node V)
  | [] => [(b, c)]
  | (b', c') :: rest => if b' = b then (b, c) :: rest else (b', c') :: setChild b c rest

/-- Go map delete `delete(m, b)` on a `map[byte]*Node`. -/
def removeChild (b : Nat) : List (Nat × Node V) → List (Nat × Node V)
  | [] => []
  | (b', c') :: rest => if b' = b then rest else (b', c') :: removeChild b rest

/-- `commonPrefixLen` (router.go lines 758-765). -/
def commonPrefixLen : List Nat → List Nat → Nat
  | x :: xs, y :: ys => if x = y then commonPrefixLen xs ys + 1 else 0
  | _, _ => 0

theorem sizeOf_lookupChild {b : Nat} {cs : List (Nat × Node V)} {c : Node V}
    (h : lookupChild b cs = some c) : sizeOf c < sizeOf cs := by
  induction cs with
  | nil => simp [lookupChild] at h
  | cons hd tl ih =>
    obtain ⟨b', c'⟩ := hd
    by_cases hb : b' = b
    · simp [lookupChild, hb] at h
      subst h
      simp
      omega
    · simp [lookupChild, hb] at h
      have := ih h
      simp
      omega

/-- `Tree.insert` (router.go lines 464-564), the recursive helper behind
`Insert`.  Mutation of the Go node `n` becomes returning the updated node. -/
def insertAux : Node V → List Nat → V → Node V
  | .mk nk nv cs, key, v =>
    match key with
    | [] => .mk nk nv cs
    | b :: _ =>
      -- Handle empty tree
      if cs.isEmpty then
        .mk nk nv (setChild b (.mk key (some v) []) cs)
      else
        -- Find the matching child
        match h : lookupChild b cs with
        | none =>
          -- No matching child, create a new one
          .mk nk nv (setChild b (.mk key (some v) []) cs)
        | some c =>
          -- Find common prefix length
          let p := commonPrefixLen key c.key
          -- If the key is already in the tree
          if p = key.length ∧ p = c.key.length then
            .mk nk nv (setChild b (.mk c.key (some v) c.children) cs)
          else if p = key.length then
            -- Key is a prefix of child, so we need to split
            let childSuffix := c.key.drop p
            let newChildren : List (Nat × Node V) :=
              if childSuffix ≠ [] then
                setChild (childSuffix.headD 0) (.mk childSuffix c.val c.children) []
              else []
            .mk nk nv (setChild b (.mk key (some v) newChildren) cs)
          else if p = c.key.length then
            -- The child key is a prefix of the key, recurse
            .mk nk nv (setChild b (insertAux c (key.drop p) v) cs)
          else
            -- Neither is a prefix of the other, split on the common prefix
            let childSuffix := c.key.drop p
            let keySuffix := key.drop p
            let base : List (Nat × Node V) :=
              setChild (childSuffix.headD 0) (.mk childSuffix c.val c.children) []
            let newNode : Node V :=
              if keySuffix ≠ [] then
                .mk (key.take p) none
                  (setChild (keySuffix.headD 0) (.mk keySuffix (some v) []) base)
              else
                -- The key ends at the split point
                .mk (key.take p) (some v) base
            .mk nk nv (setChild b newNode cs)
termination_by n => sizeOf n
decreasing_by
  have := sizeOf_lookupChild h
  simp
  omega

/-- `Tree.findNode` (router.go lines 577-614): the head-controlled loop is
embedded as recursion over the current node. -/
def findNodeAux : Node V → List Nat → Option (Node V)
  | .mk _ _ cs, key =>
    -- If we are at a leaf node and have not matched the key, it is not there
    if cs.isEmpty then none
    else
      match h : lookupChild (key.headD 0) cs with
      | none => none
      | some c =>
        -- If the child's key is longer than the remaining key, no match
        if c.key.length > key.length then none
        -- Check that the child's key matches the start of the key
        else if key.take c.key.length ≠ c.key then none
        -- If we've matched the entire key, return the child
        else if c.key.length = key.length then some c
        -- Move to the next part of the key
        else findNodeAux c (key.drop c.key.length)
termination_by n => sizeOf n
decreasing_by
  have := sizeOf_lookupChild h
  simp
  omega

/-- `Tree.delete` (router.go lines 626-678).  Returns the updated node together
with the Go return value. -/
def deleteAux : Node V → List Nat → Node V × Bool
  | .mk nk nv cs, key =>
    match key with
    | [] => (.mk nk nv cs, false)
    | b :: _ =>
      match h : lookupChild b cs with
      | none => (.mk nk nv cs, false)
      | some c =>
        -- If the key doesn't match the child, it's not in the tree
        if key.length < c.key.length ∨ key.take c.key.length ≠ c.key then
          (.mk nk nv cs, false)
        -- If we've matched the whole key
        else if key.length = c.key.length then
          if ¬ c.children.isEmpty then
            -- This node has children: just mark it as not having a value
            if c.val.isNone then (.mk nk nv cs, false)
            else (.mk nk nv (setChild b (.mk c.key none c.children) cs), true)
          else
            -- Otherwise, remove the node from its parent
            (.mk nk nv (removeChild b cs), true)
        else
          -- Recurse to the child
          let r := deleteAux c (key.drop c.key.length)
          if r.2 then
            match r.1.val, r.1.children with
            -- The child now has no value and no children: remove it
            | none, [] => (.mk nk nv (removeChild b cs), true)
            -- The child has no value and one child: merge the grandchild up
            | none, [(_, g)] =>
              (.mk nk nv (setChild b (.mk (r.1.key ++ g.key) g.val g.children) cs), true)
            | _, _ => (.mk nk nv (setChild b r.1 cs), true)
          else (.mk nk nv (setChild b r.1 cs), false)
termination_by n => sizeOf n
decreasing_by
  have := sizeOf_lookupChild h
  simp
  omega

/-- `Tree.walk` (router.go lines 691-705).  The Go visitor is an effectful
closure; it is embedded as a state-passing function returning the new state
and the early-termination flag. -/
def walkAux {σ : Type} (fn : σ → List Nat → V → σ × Bool) :
    Node V → List Nat → σ → σ × Bool
  | .mk nk nv cs, pre, s =>
    let step : σ × Bool :=
      match nv with
      | some value => fn s (pre ++ nk) value
      | none => (s, false)
    if step.2 then (step.1, true)
    else walkList fn cs (pre ++ nk) step.1
where
  /-- The `for _, c := range n.children` loop of `Tree.walk` (iteration order of
  a Go map is unspecified; the list order stands in for one such order). -/
  walkList {σ : Type} (fn : σ → List Nat → V → σ × Bool) :
      List (Nat × Node V) → List Nat → σ → σ × Bool
    | [], _, s => (s, false)
    | (_, c) :: rest, pre, s =>
      let r := walkAux fn c pre s
      if r.2 then (r.1, true) else walkList fn rest pre r.1

/-- `Tree` (router.go lines 440-443).  `size` is the Go `int` field. -/
structure Tree (V : Type) : Type where
  root : Node V
  size : Int

/-- `tree.New` (router.go lines 446-452). -/
def Tree.new : Tree V := ⟨.mk [] none [], 0⟩

/-- `Tree.Insert` (router.go lines 455-462). -/
def Tree.Insert (t : Tree V) (key : List Nat) (v : V) : Tree V :=
  if key = [] then t
  else ⟨insertAux t.root key v, t.size + 1⟩

/-- `Tree.findNode` entry point (empty key rejected, router.go lines 578-580). -/
def Tree.findNode (t : Tree V) (key : List Nat) : Option (Node V) :=
  if key = [] then none else findNodeAux t.root key

/-- `Tree.Get` (router.go lines 568-574): `(nil, false)` becomes `none`. -/
def Tree.Get (t : Tree V) (key : List Nat) : Option V :=
  match t.findNode key with
  | none => none
  | some n => n.val

/-- `Tree.Delete` (router.go lines 617-623). -/
def Tree.Delete (t : Tree V) (key : List Nat) : Tree V × Bool :=
  let r := deleteAux t.root key
  (⟨r.1, if r.2 then t.size - 1 else t.size⟩, r.2)

/-- `Tree.Walk` (router.go lines 686-688). -/
def Tree.Walk {σ : Type} (t : Tree V) (fn : σ → List Nat → V → σ × Bool) (s : σ) :
    σ × Bool :=
  walkAux fn t.root [] s

/-- `Tree.Walk` run with the collecting visitor
`fun s k v => (s ++ [(k, v)], false)` starting from the empty list: the
sequence of key/value pairs the walk visits. -/
def Tree.WalkCollect (t : Tree V) : List (List Nat × V) :=
  (t.Walk (fun s k v => (s ++ [(k, v)], false)) []).1

/-! ### Abstraction: the key/value entries of a subtree

`entriesAux n pre` is the list of full-key/value pairs stored in the subtree
rooted at `n` when the concatenation of the keys above `n` is `pre`; it is the
sequence `Tree.walk` visits.  All correctness statements are phrased through
it. -/

mutual
def entriesAux : Node V → List Nat → List (List Nat × V)
  | .mk nk nv cs, pre =>
    (match nv with
      | some v => [(pre ++ nk, v)]
      | none => []) ++ entriesList cs (pre ++ nk)
def entriesList : List (Nat × Node V) → List Nat → List (List Nat × V)
  | [], _ => []
  | (_, c) :: rest, pre => entriesAux c pre ++ entriesList rest pre
end

/-- Strong induction over nodes: to prove `P n` it suffices to prove it for a
node assuming it for every child. -/
theorem Node.recStrong {P : Node V → Prop}
    (h : ∀ nk nv cs, (∀ b c, (b, c) ∈ cs → P c) → P (.mk nk nv cs)) :
    ∀ n, P n
  | .mk nk nv cs => h nk nv cs (fun b c hm => Node.recStrong h c)
termination_by n => sizeOf n
decreasing_by
  have := List.sizeOf_lt_of_mem hm
  simp at this ⊢
  omega

/-! ### Association-list lemmas for the children map -/

theorem lookupChild_eq_none {b : Nat} {cs : List (Nat × Node V)} :
    lookupChild b cs = none ↔ b ∉ cs.map Prod.fst := by
  induction cs with
  | nil => simp [lookupChild]
  | cons hd tl ih =>
    obtain ⟨b', c'⟩ := hd
    by_cases hb : b' = b <;> simp [lookupChild, hb, ih] <;> tauto

theorem lookupChild_mem {b : Nat} {cs : List (Nat × Node V)} {c : Node V}
    (h : lookupChild b cs = some c) : (b, c) ∈ cs := by
  induction cs with
  | nil => simp [lookupChild] at h
  | cons hd tl ih =>
    obtain ⟨b', c'⟩ := hd
    by_cases hb : b' = b
    · subst hb
      simp [lookupChild] at h
      simp [h]
    · simp [lookupChild, hb] at h
      exact List.mem_cons_of_mem _ (ih h)

theorem lookupChild_of_mem {b : Nat} {cs : List (Nat × Node V)} {c : Node V}
    (nd : (cs.map Prod.fst).Nodup) (h : (b, c) ∈ cs) :
    lookupChild b cs = some c := by
  induction cs with
  | nil => simp at h
  | cons hd tl ih =>
    obtain ⟨b', c'⟩ := hd
    simp at nd
    rcases List.mem_cons.mp h with h1 | h1
    · obtain ⟨rfl, rfl⟩ := Prod.mk.injEq .. ▸ h1
      simp [lookupChild]
    · have hb : b' ≠ b := by
        rintro rfl
        exact nd.1 c h1
      simp [lookupChild, hb]
      exact ih nd.2 h1

theorem mem_setChild {b b' : Nat} {c c' : Node V} {cs : List (Nat × Node V)}
    (nd : (cs.map Prod.fst).Nodup) :
    (b', c') ∈ setChild b c cs ↔ (b' = b ∧ c' = c) ∨ (b' ≠ b ∧ (b', c') ∈ cs) := by
  induction cs with
  | nil =>
    by_cases hb : b' = b <;> simp [setChild, hb]
  | cons hd tl ih =>
    obtain ⟨a, d⟩ := hd
    simp at nd
    by_cases ha : a = b
    · subst ha
      simp [setChild]
      constructor
      · rintro (⟨rfl, rfl⟩ | hm)
        · exact Or.inl ⟨rfl, rfl⟩
        · refine Or.inr ⟨?_, Or.inr hm⟩
          rintro rfl
          exact nd.1 c' hm
      · rintro (⟨rfl, rfl⟩ | ⟨hne, (⟨rfl, rfl⟩ | hm)⟩)
        · exact Or.inl ⟨rfl, rfl⟩
        · exact absurd rfl hne
        · exact Or.inr hm
    · simp [setChild, ha, ih nd.2]
      constructor
      · rintro (⟨rfl, rfl⟩ | h1)
        · exact Or.inr ⟨ha, Or.inl ⟨rfl, rfl⟩⟩
        · tauto
      · rintro (⟨rfl, rfl⟩ | ⟨hne, (⟨rfl, rfl⟩ | hm)⟩)
        · tauto
        · exact Or.inl ⟨rfl, rfl⟩
        · tauto

theorem map_fst_setChild_lookup {b : Nat} {c c0 : Node V} {cs : List (Nat × Node V)}
    (h : lookupChild b cs = some c0) :
    (setChild b c cs).map Prod.fst = cs.map Prod.fst := by
  induction cs with
  | nil => simp [lookupChild] at h
  | cons hd tl ih =>
    obtain ⟨a, d⟩ := hd
    by_cases ha : a = b
    · subst ha
      simp [setChild]
    · simp [lookupChild, ha] at h
      simp [setChild, ha, ih h]

theorem setChild_of_lookup_none {b : Nat} {c : Node V} {cs : List (Nat × Node V)}
    (h : lookupChild b cs = none) :
    setChild b c cs = cs ++ [(b, c)] := by
  induction cs with
  | nil => simp [setChild]
  | cons hd tl ih =>
    obtain ⟨a, d⟩ := hd
    by_cases ha : a = b
    · simp [lookupChild, ha] at h
    · simp [lookupChild, ha] at h
      simp [setChild, ha, ih h]

theorem setChild_lookup_self {b : Nat} {c : Node V} {cs : List (Nat × Node V)}
    (h : lookupChild b cs = some c) :
    setChild b c cs = cs := by
  induction cs with
  | nil => simp [lookupChild] at h
  | cons hd tl ih =>
    obtain ⟨a, d⟩ := hd
    by_cases ha : a = b
    · subst ha
      simp [lookupChild] at h
      simp [setChild, h]
    · simp [lookupChild, ha] at h
      simp [setChild, ha, ih h]

theorem nodup_setChild {b : Nat} {c : Node V} {cs : List (Nat × Node V)}
    (nd : (cs.map Prod.fst).Nodup) :
    ((setChild b c cs).map Prod.fst).Nodup := by
  match h : lookupChild b cs with
  | some c0 =>
    rw [map_fst_setChild_lookup h]
    exact nd
  | none =>
    rw [setChild_of_lookup_none h]
    rw [List.map_append, List.nodup_append]
    refine ⟨nd, by simp, ?_⟩
    intro a ha hb
    simp at hb
    subst hb
    exact (lookupChild_eq_none.mp h) ha

theorem removeChild_sublist (b : Nat) (cs : List (Nat × Node V)) :
    (removeChild b cs).Sublist cs := by
  induction cs with
  | nil => simp [removeChild]
  | cons hd tl ih =>
    obtain ⟨a, d⟩ := hd
    by_cases ha : a = b
    · simp only [removeChild, if_pos ha]
      exact List.sublist_cons_self (a, d) tl
    · simp only [removeChild, if_neg ha]
      exact List.Sublist.cons₂ _ ih

theorem nodup_removeChild {b : Nat} {cs : List (Nat × Node V)}
    (nd : (cs.map Prod.fst).Nodup) :
    ((removeChild b cs).map Prod.fst).Nodup :=
  ((removeChild_sublist b cs).map Prod.fst).nodup nd

theorem mem_removeChild {b b' : Nat} {c' : Node V} {cs : List (Nat × Node V)}
    (nd : (cs.map Prod.fst).Nodup) :
    (b', c') ∈ removeChild b cs ↔ b' ≠ b ∧ (b', c') ∈ cs := by
  induction cs with
  | nil => simp [removeChild]
  | cons hd tl ih =>
    obtain ⟨a, d⟩ := hd
    simp at nd
    by_cases ha : a = b
    · subst ha
      simp [removeChild]
      constructor
      · intro hm
        refine ⟨?_, Or.inr hm⟩
        rintro rfl
        exact nd.1 c' hm
      · rintro ⟨hne, (⟨rfl, rfl⟩ | hm)⟩
        · exact absurd rfl hne
        · exact hm
    · simp [removeChild, ha, ih nd.2]
      constructor
      · rintro (⟨rfl, rfl⟩ | ⟨hne, hm⟩)
        · exact ⟨ha, Or.inl ⟨rfl, rfl⟩⟩
        · exact ⟨hne, Or.inr hm⟩
      · rintro ⟨hne, (⟨rfl, rfl⟩ | hm)⟩
        · exact Or.inl ⟨rfl, rfl⟩
        · exact Or.inr ⟨hne, hm⟩

/-! ### Entries lemmas -/

@[simp] theorem entriesList_nil (pre : List Nat) :
    entriesList ([] : List (Nat × Node V)) pre = [] := by
  simp [entriesList]

@[simp] theorem entriesList_cons (b : Nat) (c : Node V) (rest : List (Nat × Node V))
    (pre : List Nat) :
    entriesList ((b, c) :: rest) pre = entriesAux c pre ++ entriesList rest pre := by
  simp [entriesList]

theorem entriesAux_mk (nk : List Nat) (nv : Option V) (cs : List (Nat × Node V))
    (pre : List Nat) :
    entriesAux (.mk nk nv cs) pre =
      (match nv with
        | some v => [(pre ++ nk, v)]
        | none => []) ++ entriesList cs (pre ++ nk) := by
  simp [entriesAux]

theorem mem_entriesAux {n : Node V} {pre k : List Nat} {w : V} :
    (k, w) ∈ entriesAux n pre ↔
      (n.val = some w ∧ k = pre ++ n.key) ∨ (k, w) ∈ entriesList n.children (pre ++ n.key) := by
  obtain ⟨nk, nv, cs⟩ := n
  rw [entriesAux_mk]
  cases nv <;> simp <;> tauto

theorem mem_entriesList {cs : List (Nat × Node V)} {pre k : List Nat} {w : V} :
    (k, w) ∈ entriesList cs pre ↔ ∃ b c, (b, c) ∈ cs ∧ (k, w) ∈ entriesAux c pre := by
  induction cs with
  | nil => simp
  | cons hd tl ih =>
    obtain ⟨b', c'⟩ := hd
    simp [ih]
    constructor
    · rintro (h | ⟨b, c, hm, h⟩)
      · exact ⟨b', c', Or.inl ⟨rfl, rfl⟩, h⟩
      · exact ⟨b, c, Or.inr hm, h⟩
    · rintro ⟨b, c, (⟨rfl, rfl⟩ | hm), h⟩
      · exact Or.inl h
      · exact Or.inr ⟨b, c, hm, h⟩

/-- Entries of a subtree under prefix `pre` are the `pre`-shifted entries
under the empty prefix. -/
theorem entriesAux_shift (n : Node V) :
    ∀ pre, entriesAux n pre = (entriesAux n []).map (fun p => (pre ++ p.1, p.2)) := by
  induction n using Node.recStrong with
  | _ nk nv cs IH =>
    have hlist : ∀ q, entriesList cs q = (entriesList cs []).map (fun p => (q ++ p.1, p.2)) := by
      intro q
      induction cs with
      | nil => simp
      | cons hd tl ihtl =>
        obtain ⟨b', c'⟩ := hd
        have h1 := IH b' c' (List.mem_cons_self _ _) q
        have h2 := ihtl (fun b c hm => IH b c (List.mem_cons_of_mem _ hm))
        simp [h1, h2]
    intro pre
    rw [entriesAux_mk, entriesAux_mk, List.nil_append, List.map_append]
    congr 1
    · cases nv <;> simp
    · rw [hlist (pre ++ nk), hlist nk, List.map_map]
      congr 1
      funext p
      simp

theorem entriesList_shift (cs : List (Nat × Node V)) (q : List Nat) :
    entriesList cs q = (entriesList cs []).map (fun p => (q ++ p.1, p.2)) := by
  induction cs with
  | nil => simp
  | cons hd tl ih =>
    obtain ⟨b', c'⟩ := hd
    simp [entriesAux_shift c' q, ih]

/-- Every entry key of a subtree extends the subtree root's key segment. -/
theorem entriesAux_key_shape {n : Node V} {k : List Nat} {w : V}
    (h : (k, w) ∈ entriesAux n []) : ∃ s, k = n.key ++ s := by
  rcases mem_entriesAux.mp h with ⟨_, rfl⟩ | h1
  · exact ⟨[], by simp⟩
  · rw [List.nil_append, entriesList_shift] at h1
    obtain ⟨p, hm, hp⟩ := List.mem_map.mp h1
    refine ⟨p.1, ?_⟩
    have h2 := congrArg Prod.fst hp
    simp at h2
    exact h2.symm

theorem mem_entriesAux_head {b : Nat} {c : Node V} {k : List Nat} {w : V}
    (hh : c.key.head? = some b) (h : (k, w) ∈ entriesAux c []) : k.head? = some b := by
  obtain ⟨s, rfl⟩ := entriesAux_key_shape h
  cases hk : c.key with
  | nil => simp [hk] at hh
  | cons x xs => simp [hk] at hh ⊢; exact hh

/-! ### The structural invariant

Every child sits in the map under the first byte of its (nonempty) key
segment, and the byte keys of the children map are distinct — exactly what
holds for the Go `map[byte]*Node` built by `Insert`/`Delete`. -/

inductive Good : Node V → Prop where
  | intro : ∀ nk nv cs,
      (cs.map Prod.fst).Nodup →
      (∀ b c, (b, c) ∈ cs → c.key.head? = some b) →
      (∀ b c, (b, c) ∈ cs → Good c) →
      Good (.mk nk nv cs)

theorem Good.nodup {n : Node V} (h : Good n) : (n.children.map Prod.fst).Nodup := by
  cases h with
  | intro nk nv cs h1 h2 h3 => exact h1

theorem Good.child_head {n : Node V} {b : Nat} {c : Node V} (h : Good n)
    (hm : (b, c) ∈ n.children) : c.key.head? = some b := by
  cases h with
  | intro nk nv cs h1 h2 h3 => exact h2 b c hm

theorem Good.child {n : Node V} {b : Nat} {c : Node V} (h : Good n)
    (hm : (b, c) ∈ n.children) : Good c := by
  cases h with
  | intro nk nv cs h1 h2 h3 => exact h3 b c hm

theorem Good.child_key_ne_nil {n : Node V} {b : Nat} {c : Node V} (h : Good n)
    (hm : (b, c) ∈ n.children) : c.key ≠ [] := by
  have := h.child_head hm
  cases hk : c.key with
  | nil => rw [hk] at this; simp at this
  | cons x xs => simp

/-! ### `commonPrefixLen` lemmas -/

theorem cpl_le_left (a b : List Nat) : commonPrefixLen a b ≤ a.length := by
  induction a generalizing b with
  | nil => simp [commonPrefixLen]
  | cons x xs ih =>
    cases b with
    | nil => simp [commonPrefixLen]
    | cons y ys =>
      by_cases hxy : x = y <;> simp [commonPrefixLen, hxy]
      exact ih ys

theorem cpl_le_right (a b : List Nat) : commonPrefixLen a b ≤ b.length := by
  induction a generalizing b with
  | nil => simp [commonPrefixLen]
  | cons x xs ih =>
    cases b with
    | nil => simp [commonPrefixLen]
    | cons y ys =>
      by_cases hxy : x = y <;> simp [commonPrefixLen, hxy]
      exact ih ys

theorem take_cpl (a b : List Nat) :
    a.take (commonPrefixLen a b) = b.take (commonPrefixLen a b) := by
  induction a generalizing b with
  | nil => simp [commonPrefixLen]
  | cons x xs ih =>
    cases b with
    | nil => simp [commonPrefixLen]
    | cons y ys =>
      by_cases hxy : x = y <;> simp [commonPrefixLen, hxy]
      exact ih ys

/-- If the common prefix exhausts `a` then `a` is a prefix of `b`. -/
theorem append_drop_of_cpl_left {a b : List Nat} (h : commonPrefixLen a b = a.length) :
    b = a ++ b.drop a.length := by
  have h1 := take_cpl a b
  rw [h, List.take_length] at h1
  conv_lhs => rw [← List.take_append_drop a.length b]
  rw [← h1]

theorem eq_of_cpl_both {a b : List Nat} (h1 : commonPrefixLen a b = a.length)
    (h2 : commonPrefixLen a b = b.length) : a = b := by
  have hb := append_drop_of_cpl_left h1
  have hlen : a.length = b.length := by rw [← h1, h2]
  rw [hb]
  have : b.drop a.length = [] := by
    apply List.drop_eq_nil_of_le
    omega
  simp [this]

/-- Maximality: just past the common prefix the two lists differ. -/
theorem cpl_headD_ne {a b : List Nat} (h1 : commonPrefixLen a b < a.length)
    (h2 : commonPrefixLen a b < b.length) :
    (a.drop (commonPrefixLen a b)).headD 0 ≠ (b.drop (commonPrefixLen a b)).headD 0 := by
  induction a generalizing b with
  | nil => simp at h1
  | cons x xs ih =>
    cases b with
    | nil => simp at h2
    | cons y ys =>
      by_cases hxy : x = y
      · simp only [commonPrefixLen, if_pos hxy, List.length_cons,
          Nat.add_lt_add_iff_right, List.drop_succ_cons] at h1 h2 ⊢
        exact ih h1 h2
      · simp [commonPrefixLen, hxy]

/-! ### Branch equations for the recursive tree operations -/

theorem insertAux_nil (nk : List Nat) (nv : Option V) (cs : List (Nat × Node V)) (v : V) :
    insertAux (.mk nk nv cs) [] v = .mk nk nv cs := by
  rw [insertAux]

theorem insertAux_empty {cs : List (Nat × Node V)} (nk : List Nat) (nv : Option V)
    (b : Nat) (tail : List Nat) (v : V) (h : cs.isEmpty) :
    insertAux (.mk nk nv cs) (b :: tail) v
      = .mk nk nv (setChild b (.mk (b :: tail) (some v) []) cs) := by
  rw [insertAux]
  simp [h]

theorem insertAux_none {cs : List (Nat × Node V)} (nk : List Nat) (nv : Option V)
    (b : Nat) (tail : List Nat) (v : V) (h : ¬ cs.isEmpty)
    (hl : lookupChild b cs = none) :
    insertAux (.mk nk nv cs) (b :: tail) v
      = .mk nk nv (setChild b (.mk (b :: tail) (some v) []) cs) := by
  rw [insertAux]
  rw [if_neg h]
  split
  · rfl
  · rename_i c2 heq
    rw [hl] at heq
    cases heq

theorem insertAux_found {cs : List (Nat × Node V)} {c : Node V} (nk : List Nat)
    (nv : Option V) (b : Nat) (tail : List Nat) (v : V) (h : ¬ cs.isEmpty)
    (hl : lookupChild b cs = some c) :
    insertAux (.mk nk nv cs) (b :: tail) v =
      (let key := b :: tail
       let p := commonPrefixLen key c.key
       if p = key.length ∧ p = c.key.length then
         .mk nk nv (setChild b (.mk c.key (some v) c.children) cs)
       else if p = key.length then
         let childSuffix := c.key.drop p
         let newChildren : List (Nat × Node V) :=
           if childSuffix ≠ [] then
             setChild (childSuffix.headD 0) (.mk childSuffix c.val c.children) []
           else []
         .mk nk nv (setChild b (.mk key (some v) newChildren) cs)
       else if p = c.key.length then
         .mk nk nv (setChild b (insertAux c (key.drop p) v) cs)
       else
         let childSuffix := c.key.drop p
         let keySuffix := key.drop p
         let base : List (Nat × Node V) :=
           setChild (childSuffix.headD 0) (.mk childSuffix c.val c.children) []
         let newNode : Node V :=
           if keySuffix ≠ [] then
             .mk (key.take p) none
               (setChild (keySuffix.headD 0) (.mk keySuffix (some v) []) base)
           else .mk (key.take p) (some v) base
         .mk nk nv (setChild b newNode cs)) := by
  rw [insertAux]
  rw [if_neg h]
  split
  · rename_i heq
    simp [heq] at hl
  · rename_i c2 heq
    have hc : c2 = c := by
      rw [hl] at heq
      exact (Option.some.inj heq).symm
    subst hc
    rfl

theorem findNodeAux_leaf {cs : List (Nat × Node V)} (nk : List Nat) (nv : Option V)
    (key : List Nat) (h : cs.isEmpty) :
    findNodeAux (.mk nk nv cs) key = none := by
  rw [findNodeAux]
  simp [h]

theorem findNodeAux_none {cs : List (Nat × Node V)} (nk : List Nat) (nv : Option V)
    (key : List Nat) (h : ¬ cs.isEmpty) (hl : lookupChild (key.headD 0) cs = none) :
    findNodeAux (.mk nk nv cs) key = none := by
  rw [List.headD_eq_head?_getD] at hl
  rw [findNodeAux]
  rw [if_neg h]
  split
  · rfl
  · rename_i c2 heq
    rw [List.headD_eq_head?_getD] at heq
    rw [hl] at heq
    cases heq

theorem findNodeAux_found {cs : List (Nat × Node V)} {c : Node V} (nk : List Nat)
    (nv : Option V) (key : List Nat) (h : ¬ cs.isEmpty)
    (hl : lookupChild (key.headD 0) cs = some c) :
    findNodeAux (.mk nk nv cs) key =
      (if c.key.length > key.length then none
       else if key.take c.key.length ≠ c.key then none
       else if c.key.length = key.length then some c
       else findNodeAux c (key.drop c.key.length)) := by
  rw [List.headD_eq_head?_getD] at hl
  rw [findNodeAux]
  rw [if_neg h]
  split
  · rename_i heq
    rw [List.headD_eq_head?_getD] at heq
    rw [heq] at hl
    cases hl
  · rename_i c2 heq
    rw [List.headD_eq_head?_getD] at heq
    have hc : c2 = c := by
      rw [hl] at heq
      exact (Option.some.inj heq).symm
    subst hc
    rfl

theorem deleteAux_nil (nk : List Nat) (nv : Option V) (cs : List (Nat × Node V)) :
    deleteAux (.mk nk nv cs) [] = (.mk nk nv cs, false) := by
  rw [deleteAux]

theorem deleteAux_none {cs : List (Nat × Node V)} (nk : List Nat) (nv : Option V)
    (b : Nat) (tail : List Nat) (hl : lookupChild b cs = none) :
    deleteAux (.mk nk nv cs) (b :: tail) = (.mk nk nv cs, false) := by
  rw [deleteAux]
  split
  · rfl
  · rename_i c2 heq
    rw [hl] at heq
    cases heq

theorem deleteAux_found {cs : List (Nat × Node V)} {c : Node V} (nk : List Nat)
    (nv : Option V) (b : Nat) (tail : List Nat)
    (hl : lookupChild b cs = some c) :
    deleteAux (.mk nk nv cs) (b :: tail) =
      (let key := b :: tail
       if key.length < c.key.length ∨ key.take c.key.length ≠ c.key then
         (.mk nk nv cs, false)
       else if key.length = c.key.length then
         if ¬ c.children.isEmpty then
           if c.val.isNone then (.mk nk nv cs, false)
           else (.mk nk nv (setChild b (.mk c.key none c.children) cs), true)
         else (.mk nk nv (removeChild b cs), true)
       else
         let r := deleteAux c (key.drop c.key.length)
         if r.2 then
           match r.1.val, r.1.children with
           | none, [] => (.mk nk nv (removeChild b cs), true)
           | none, [(_, g)] =>
             (.mk nk nv (setChild b (.mk (r.1.key ++ g.key) g.val g.children) cs), true)
           | _, _ => (.mk nk nv (setChild b r.1 cs), true)
         else (.mk nk nv (setChild b r.1 cs), false)) := by
  rw [deleteAux]
  split
  · rename_i heq
    simp [heq] at hl
  · rename_i c2 heq
    have hc : c2 = c := by
      rw [hl] at heq
      exact (Option.some.inj heq).symm
    subst hc
    rfl

/-! ### Entries under children-map updates -/

theorem entriesAux_leaf (key : List Nat) (v : V) (pre : List Nat) :
    entriesAux (.mk key (some v) ([] : List (Nat × Node V))) pre = [(pre ++ key, v)] := by
  simp [entriesAux_mk]

theorem mem_entriesList_setChild {b : Nat} {c' : Node V} {cs : List (Nat × Node V)}
    {pre k : List Nat} {w : V} (nd : (cs.map Prod.fst).Nodup) :
    (k, w) ∈ entriesList (setChild b c' cs) pre ↔
      (k, w) ∈ entriesAux c' pre ∨
        ∃ b2 d, (b2, d) ∈ cs ∧ b2 ≠ b ∧ (k, w) ∈ entriesAux d pre := by
  rw [mem_entriesList]
  constructor
  · rintro ⟨b2, d, hm, hd⟩
    rcases (mem_setChild nd).mp hm with ⟨rfl, rfl⟩ | ⟨hne, hm2⟩
    · exact Or.inl hd
    · exact Or.inr ⟨b2, d, hm2, hne, hd⟩
  · rintro (hd | ⟨b2, d, hm, hne, hd⟩)
    · exact ⟨b, c', (mem_setChild nd).mpr (Or.inl ⟨rfl, rfl⟩), hd⟩
    · exact ⟨b2, d, (mem_setChild nd).mpr (Or.inr ⟨hne, hm⟩), hd⟩

theorem mem_entriesList_removeChild {b : Nat} {cs : List (Nat × Node V)}
    {pre k : List Nat} {w : V} (nd : (cs.map Prod.fst).Nodup) :
    (k, w) ∈ entriesList (removeChild b cs) pre ↔
      ∃ b2 d, (b2, d) ∈ cs ∧ b2 ≠ b ∧ (k, w) ∈ entriesAux d pre := by
  rw [mem_entriesList]
  constructor
  · rintro ⟨b2, d, hm, hd⟩
    obtain ⟨hne, hm2⟩ := (mem_removeChild nd).mp hm
    exact ⟨b2, d, hm2, hne, hd⟩
  · rintro ⟨b2, d, hm, hne, hd⟩
    exact ⟨b2, d, (mem_removeChild nd).mpr ⟨hne, hm⟩, hd⟩

/-- Entries under children other than the one at byte `b` have a head byte
different from `b`. -/
theorem others_head_ne {cs : List (Nat × Node V)} {b : Nat} {k : List Nat} {w : V}
    (hH : ∀ b2 d, (b2, d) ∈ cs → d.key.head? = some b2)
    (h : ∃ b2 d, (b2, d) ∈ cs ∧ b2 ≠ b ∧ (k, w) ∈ entriesAux d []) :
    k.head? ≠ some b := by
  obtain ⟨b2, d, hm, hne, hd⟩ := h
  rw [mem_entriesAux_head (hH b2 d hm) hd]
  simp
  exact hne

theorem headD_of_ne_nil {l : List Nat} (h : l ≠ []) : l.head? = some (l.headD 0) := by
  cases l with
  | nil => exact absurd rfl h
  | cons x xs => rfl

theorem drop_ne_nil_of_lt {l : List Nat} {p : Nat} (h : p < l.length) : l.drop p ≠ [] := by
  intro hc
  have := List.drop_eq_nil_iff.mp hc
  omega

/-! ### `Good` helper forms -/

theorem good_mk_iff {nk : List Nat} {nv : Option V} {cs : List (Nat × Node V)} :
    Good (.mk nk nv cs) ↔
      (cs.map Prod.fst).Nodup ∧
      (∀ b c, (b, c) ∈ cs → c.key.head? = some b) ∧
      (∀ b c, (b, c) ∈ cs → Good c) := by
  constructor
  · intro h
    cases h with
    | intro nk nv cs h1 h2 h3 => exact ⟨h1, h2, h3⟩
  · rintro ⟨h1, h2, h3⟩
    exact Good.intro nk nv cs h1 h2 h3

/-- `Good` constrains only the children, not the node's own key or value. -/
theorem Good.retag {nk nv cs} {nk' : List Nat} {nv' : Option V}
    (h : Good (.mk nk nv cs : Node V)) : Good (.mk nk' nv' cs) := by
  rw [good_mk_iff] at h ⊢
  exact h

theorem good_of_children {n : Node V} (nk : List Nat) (nv : Option V) (h : Good n) :
    Good (.mk nk nv n.children) := by
  obtain ⟨k0, v0, cs0⟩ := n
  exact h.retag

theorem good_leaf (key : List Nat) (nv : Option V) :
    Good (.mk key nv ([] : List (Nat × Node V))) := by
  rw [good_mk_iff]
  refine ⟨by simp, ?_, ?_⟩ <;> intro b c hm <;> simp at hm

/-! ### Shape of `insertAux` results -/

theorem insertAux_mk_shape (nk : List Nat) (nv : Option V) (cs : List (Nat × Node V))
    (key : List Nat) (v : V) :
    ∃ cs', insertAux (.mk nk nv cs) key v = .mk nk nv cs' := by
  cases key with
  | nil => exact ⟨cs, insertAux_nil nk nv cs v⟩
  | cons b tail =>
    by_cases h : cs.isEmpty
    · exact ⟨_, insertAux_empty nk nv b tail v h⟩
    · match hl : lookupChild b cs with
      | none => exact ⟨_, insertAux_none nk nv b tail v h hl⟩
      | some c =>
        rw [insertAux_found nk nv b tail v h hl]
        dsimp only
        split_ifs <;> exact ⟨_, rfl⟩

theorem insertAux_key (n : Node V) (key : List Nat) (v : V) :
    (insertAux n key v).key = n.key := by
  obtain ⟨nk, nv, cs⟩ := n
  obtain ⟨cs', h⟩ := insertAux_mk_shape nk nv cs key v
  rw [h]
  rfl

theorem insertAux_val (n : Node V) (key : List Nat) (v : V) :
    (insertAux n key v).val = n.val := by
  obtain ⟨nk, nv, cs⟩ := n
  obtain ⟨cs', h⟩ := insertAux_mk_shape nk nv cs key v
  rw [h]
  rfl

theorem good_setChild {nk : List Nat} {nv : Option V} {cs : List (Nat × Node V)}
    {b : Nat} {C : Node V}
    (hg : Good (.mk nk nv cs)) (hh : C.key.head? = some b) (hC : Good C) :
    Good (.mk nk nv (setChild b C cs)) := by
  rw [good_mk_iff]
  have nd : (cs.map Prod.fst).Nodup := hg.nodup
  refine ⟨nodup_setChild nd, ?_, ?_⟩
  · intro b2 d hm
    rcases (mem_setChild nd).mp hm with ⟨rfl, rfl⟩ | ⟨_, hm2⟩
    · exact hh
    · exact hg.child_head hm2
  · intro b2 d hm
    rcases (mem_setChild nd).mp hm with ⟨rfl, rfl⟩ | ⟨_, hm2⟩
    · exact hC
    · exact hg.child hm2

/-- If the matching child sits at byte `b`, the common prefix with the
looked-up key `b :: tail` is at least one byte long. -/
theorem one_le_cpl_of_head {b : Nat} {tail ck : List Nat}
    (h : ck.head? = some b) : 1 ≤ commonPrefixLen (b :: tail) ck := by
  cases ck with
  | nil => simp at h
  | cons y ys =>
    simp at h
    simp [commonPrefixLen, h]

theorem head_take_of_pos {b : Nat} {tail : List Nat} {p : Nat} (h : 1 ≤ p) :
    ((b :: tail).take p).head? = some b := by
  cases p with
  | zero => omega
  | succ q => simp

/-- `insert` preserves the structural invariant. -/
theorem insertAux_good : ∀ (n : Node V) (key : List Nat) (v : V),
    key ≠ [] → Good n → Good (insertAux n key v) := by
  intro n key v
  induction n, key, v using insertAux.induct with
  | case1 nk nv cs v =>
    intro hne _
    exact absurd rfl hne
  | case2 nk nv cs v b tail hemp =>
    intro _ hg
    rw [insertAux_empty nk nv b tail v hemp]
    exact good_setChild hg (by simp) (good_leaf _ _)
  | case3 nk nv cs v b tail hemp hl =>
    intro _ hg
    rw [insertAux_none nk nv b tail v hemp hl]
    exact good_setChild hg (by simp) (good_leaf _ _)
  | case4 nk nv cs v b tail hemp c hl p hp =>
    intro _ hg
    have hp' : commonPrefixLen (b :: tail) c.key = (b :: tail).length ∧
        commonPrefixLen (b :: tail) c.key = c.key.length := hp
    rw [insertAux_found nk nv b tail v hemp hl]
    dsimp only
    rw [if_pos hp']
    have hm := lookupChild_mem hl
    exact good_setChild hg (by simpa using hg.child_head hm)
      (good_of_children _ _ (hg.child hm))
  | case5 nk nv cs v b tail hemp c hl p hnb hpk =>
    intro _ hg
    have hnb' : ¬ (commonPrefixLen (b :: tail) c.key = (b :: tail).length ∧
        commonPrefixLen (b :: tail) c.key = c.key.length) := hnb
    have hpk' : commonPrefixLen (b :: tail) c.key = (b :: tail).length := hpk
    rw [insertAux_found nk nv b tail v hemp hl]
    dsimp only
    rw [if_neg hnb', if_pos hpk']
    have hm := lookupChild_mem hl
    have hplt : commonPrefixLen (b :: tail) c.key < c.key.length := by
      have h1 := cpl_le_right (b :: tail) c.key
      have h2 : ¬ commonPrefixLen (b :: tail) c.key = c.key.length :=
        fun hc => hnb' ⟨hpk', hc⟩
      omega
    have hcs : c.key.drop (commonPrefixLen (b :: tail) c.key) ≠ [] := drop_ne_nil_of_lt hplt
    rw [if_pos hcs]
    refine good_setChild hg (by simp) ?_
    rw [good_mk_iff]
    refine ⟨by simp [setChild], ?_, ?_⟩ <;> intro b2 d hm2 <;> simp [setChild] at hm2 <;>
      obtain ⟨rfl, rfl⟩ := hm2
    · simpa using headD_of_ne_nil hcs
    · exact good_of_children _ _ (hg.child hm)
  | case6 nk nv cs v b tail hemp c hl p hnb hnpk hpc ih =>
    intro _ hg
    have hnb' : ¬ (commonPrefixLen (b :: tail) c.key = (b :: tail).length ∧
        commonPrefixLen (b :: tail) c.key = c.key.length) := hnb
    have hnpk' : ¬ commonPrefixLen (b :: tail) c.key = (b :: tail).length := hnpk
    have hpc' : commonPrefixLen (b :: tail) c.key = c.key.length := hpc
    rw [insertAux_found nk nv b tail v hemp hl]
    dsimp only
    rw [if_neg hnb', if_neg hnpk', if_pos hpc']
    have hm := lookupChild_mem hl
    have hplt : commonPrefixLen (b :: tail) c.key < (b :: tail).length := by
      have h1 := cpl_le_left (b :: tail) c.key
      omega
    refine good_setChild hg ?_ ?_
    · rw [insertAux_key]
      exact hg.child_head hm
    · exact ih (drop_ne_nil_of_lt hplt) (hg.child hm)
  | case7 nk nv cs v b tail hemp c hl p hnb hnpk hnpc =>
    intro _ hg
    have hnb' : ¬ (commonPrefixLen (b :: tail) c.key = (b :: tail).length ∧
        commonPrefixLen (b :: tail) c.key = c.key.length) := hnb
    have hnpk' : ¬ commonPrefixLen (b :: tail) c.key = (b :: tail).length := hnpk
    have hnpc' : ¬ commonPrefixLen (b :: tail) c.key = c.key.length := hnpc
    rw [insertAux_found nk nv b tail v hemp hl]
    dsimp only
    rw [if_neg hnb', if_neg hnpk', if_neg hnpc']
    have hm := lookupChild_mem hl
    have hkey : commonPrefixLen (b :: tail) c.key < (b :: tail).length := by
      have h1 := cpl_le_left (b :: tail) c.key
      omega
    have hck : commonPrefixLen (b :: tail) c.key < c.key.length := by
      have h1 := cpl_le_right (b :: tail) c.key
      omega
    have hks : (b :: tail).drop (commonPrefixLen (b :: tail) c.key) ≠ [] :=
      drop_ne_nil_of_lt hkey
    have hcs : c.key.drop (commonPrefixLen (b :: tail) c.key) ≠ [] :=
      drop_ne_nil_of_lt hck
    rw [if_pos hks]
    have hne0 := cpl_headD_ne hkey hck
    have hne : (b :: tail)[commonPrefixLen (b :: tail) c.key]?.getD 0 ≠
        c.key[commonPrefixLen (b :: tail) c.key]?.getD 0 := by
      simpa [List.headD_eq_head?_getD, List.head?_drop] using hne0
    have hone : 1 ≤ commonPrefixLen (b :: tail) c.key :=
      one_le_cpl_of_head (hg.child_head hm)
    refine good_setChild hg ?_ ?_
    · simpa using head_take_of_pos hone
    · rw [good_mk_iff]
      have hset : setChild (((b :: tail).drop (commonPrefixLen (b :: tail) c.key)).headD 0)
          (.mk ((b :: tail).drop (commonPrefixLen (b :: tail) c.key)) (some v) [])
          (setChild ((c.key.drop (commonPrefixLen (b :: tail) c.key)).headD 0)
            (.mk (c.key.drop (commonPrefixLen (b :: tail) c.key)) c.val c.children) []) =
          [((c.key.drop (commonPrefixLen (b :: tail) c.key)).headD 0,
            .mk (c.key.drop (commonPrefixLen (b :: tail) c.key)) c.val c.children),
           (((b :: tail).drop (commonPrefixLen (b :: tail) c.key)).headD 0,
            .mk ((b :: tail).drop (commonPrefixLen (b :: tail) c.key)) (some v) [])] := by
        simp [setChild, Ne.symm hne]
      rw [hset]
      refine ⟨by simp [Ne.symm hne], ?_, ?_⟩ <;> intro b2 d hm2 <;> simp at hm2 <;>
        rcases hm2 with ⟨rfl, rfl⟩ | ⟨rfl, rfl⟩
      · simpa using headD_of_ne_nil hcs
      · simpa using headD_of_ne_nil hks
      · exact good_of_children _ _ (hg.child hm)
      · exact good_leaf _ _

/-! ### Decomposition lemmas for entries -/

theorem mem_entriesList_shift {cs : List (Nat × Node V)} {q k : List Nat} {w : V} :
    (k, w) ∈ entriesList cs q ↔ ∃ s, k = q ++ s ∧ (s, w) ∈ entriesList cs [] := by
  rw [entriesList_shift]
  constructor
  · intro h
    obtain ⟨p, hm, hp⟩ := List.mem_map.mp h
    obtain ⟨s, w'⟩ := p
    obtain ⟨h1, h2⟩ := Prod.mk.injEq .. ▸ hp
    exact ⟨s, h1.symm, h2 ▸ hm⟩
  · rintro ⟨s, rfl, hm⟩
    exact List.mem_map.mpr ⟨(s, w), hm, rfl⟩

theorem mem_entriesAux_node {c : Node V} {k : List Nat} {w : V} :
    (k, w) ∈ entriesAux c [] ↔
      (c.val = some w ∧ k = c.key) ∨
        ∃ s, k = c.key ++ s ∧ (s, w) ∈ entriesList c.children [] := by
  rw [mem_entriesAux, List.nil_append, mem_entriesList_shift]

theorem mem_entriesList_nil_ne {cs : List (Nat × Node V)} {k : List Nat} {w : V}
    (hH : ∀ b2 d, (b2, d) ∈ cs → d.key.head? = some b2)
    (h : (k, w) ∈ entriesList cs []) : k ≠ [] := by
  obtain ⟨b2, d, hm, hd⟩ := mem_entriesList.mp h
  have := mem_entriesAux_head (hH b2 d hm) hd
  intro hc
  rw [hc] at this
  simp at this

theorem mem_entriesList_decomp {nk : List Nat} {nv : Option V} {cs : List (Nat × Node V)}
    {b : Nat} {c : Node V} (hg : Good (.mk nk nv cs)) (hl : lookupChild b cs = some c)
    {k : List Nat} {w : V} :
    (k, w) ∈ entriesList cs [] ↔
      (k, w) ∈ entriesAux c [] ∨
        ∃ b2 d, (b2, d) ∈ cs ∧ b2 ≠ b ∧ (k, w) ∈ entriesAux d [] := by
  have nd : (cs.map Prod.fst).Nodup := hg.nodup
  rw [mem_entriesList]
  constructor
  · rintro ⟨b2, d, hm, hd⟩
    by_cases hb : b2 = b
    · subst hb
      have : d = c := by
        have h1 := lookupChild_of_mem nd hm
        rw [hl] at h1
        exact (Option.some.inj h1).symm
      subst this
      exact Or.inl hd
    · exact Or.inr ⟨b2, d, hm, hb, hd⟩
  · rintro (hd | ⟨b2, d, hm, hb, hd⟩)
    · exact ⟨b, c, lookupChild_mem hl, hd⟩
    · exact ⟨b2, d, hm, hd⟩

theorem headD_append_of_ne_nil {xs ys : List Nat} (h : xs ≠ []) :
    (xs ++ ys).headD 0 = xs.headD 0 := by
  cases xs with
  | nil => exact absurd rfl h
  | cons a tl => rfl

/-- Entry keys of a child list under `Good`-style head conditions have a
head byte equal to their child's byte. -/
theorem entriesAux_ne_of_shape {c : Node V} {k key : List Nat} {w : V}
    (hgc : Good c) (hlen : key.length < c.key.length)
    (h : (k, w) ∈ entriesAux c []) : k ≠ key := by
  obtain ⟨s, rfl⟩ := entriesAux_key_shape h
  intro hc
  have : c.key.length + s.length = key.length := by
    simpa using congrArg List.length hc
  omega

theorem mem_entriesAux_good {c : Node V} (hgc : Good c) {k : List Nat} {w : V} :
    (k, w) ∈ entriesAux c [] ↔
      (c.val = some w ∧ k = c.key) ∨
        ∃ s, s ≠ [] ∧ k = c.key ++ s ∧ (s, w) ∈ entriesList c.children [] := by
  rw [mem_entriesAux_node]
  constructor
  · rintro (h | ⟨s, rfl, hm⟩)
    · exact Or.inl h
    · exact Or.inr ⟨s, mem_entriesList_nil_ne (fun b2 d hm2 => hgc.child_head hm2) hm, rfl, hm⟩
  · rintro (h | ⟨s, _, rfl, hm⟩)
    · exact Or.inl h
    · exact Or.inr ⟨s, rfl, hm⟩

theorem mem_entriesAux_mk2 {nk : List Nat} {nv : Option V} {cs : List (Nat × Node V)}
    {pre k : List Nat} {w : V} :
    (k, w) ∈ entriesAux (.mk nk nv cs) pre ↔
      (nv = some w ∧ k = pre ++ nk) ∨ (k, w) ∈ entriesList cs (pre ++ nk) := by
  rw [mem_entriesAux]
  simp

theorem head?_append_left {xs ys : List Nat} (h : xs ≠ []) :
    (xs ++ ys).head? = xs.head? := by
  cases xs with
  | nil => exact absurd rfl h
  | cons a tl => rfl

/-- Keys in the entries of a node `c` never equal a strict prefix of
`c.key`. -/
theorem entriesAux_ne_of_strict {c : Node V} {k key0 : List Nat} {w : V}
    (hlen : key0.length < c.key.length) (h : (k, w) ∈ entriesAux c []) : k ≠ key0 := by
  obtain ⟨s, rfl⟩ := entriesAux_key_shape h
  intro hc
  have hl2 := congrArg List.length hc
  rw [List.length_append] at hl2
  omega

/-- Entries of the overwritten child: the new value replaces the old one at
`c.key`, everything else is kept. -/
theorem entriesAux_overwrite_node {c : Node V} (hgc : Good c) {v : V}
    (k : List Nat) (w : V) :
    ((k, w) ∈ entriesAux (.mk c.key (some v) c.children) [] ↔
      (k = c.key ∧ w = v) ∨ ((k, w) ∈ entriesAux c [] ∧ k ≠ c.key)) := by
  rw [mem_entriesAux_mk2, mem_entriesAux (n := c)]
  simp only [List.nil_append, Option.some.injEq]
  constructor
  · rintro (⟨rfl, rfl⟩ | hmem)
    · exact Or.inl ⟨rfl, rfl⟩
    · refine Or.inr ⟨Or.inr hmem, ?_⟩
      rw [mem_entriesList_shift] at hmem
      obtain ⟨s, rfl, hmem2⟩ := hmem
      have hs := mem_entriesList_nil_ne (fun b2 d hm2 => hgc.child_head hm2) hmem2
      intro hc
      have hlen := congrArg List.length hc
      rw [List.length_append] at hlen
      exact hs (List.eq_nil_of_length_eq_zero (by omega))
  · rintro (⟨rfl, rfl⟩ | ⟨(⟨hv, rfl⟩ | hmem), hne⟩)
    · exact Or.inl ⟨rfl, rfl⟩
    · exact absurd rfl hne
    · exact Or.inr hmem

/-- Entries of the split node built when the inserted key is a strict prefix
of the child's key segment. -/
theorem entriesAux_split_node {c : Node V} {key0 s0 : List Nat} {v : V}
    (hck : c.key = key0 ++ s0) (k : List Nat) (w : V) :
    ((k, w) ∈ entriesAux
        (.mk key0 (some v) (setChild (s0.headD 0) (.mk s0 c.val c.children) [])) [] ↔
      (k = key0 ∧ w = v) ∨ (k, w) ∈ entriesAux c []) := by
  rw [mem_entriesAux (n := c), hck]
  simp only [setChild, mem_entriesAux_mk2, entriesList_cons, entriesList_nil,
    List.append_nil, List.nil_append, Option.some.injEq]
  constructor
  · rintro (⟨rfl, rfl⟩ | h)
    · exact Or.inl ⟨rfl, rfl⟩
    · exact Or.inr h
  · rintro (⟨rfl, rfl⟩ | h)
    · exact Or.inl ⟨rfl, rfl⟩
    · exact Or.inr h

/-- Entries of the two-child split node built when neither key is a prefix of
the other. -/
theorem entriesAux_split2_node {c : Node V} {t s0 r0 : List Nat} {v : V}
    (hck : c.key = t ++ s0) (hne : s0.headD 0 ≠ r0.headD 0) (k : List Nat) (w : V) :
    ((k, w) ∈ entriesAux
        (.mk t none
          (setChild (r0.headD 0) (.mk r0 (some v) [])
            (setChild (s0.headD 0) (.mk s0 c.val c.children) []))) [] ↔
      (k = t ++ r0 ∧ w = v) ∨ (k, w) ∈ entriesAux c []) := by
  have hne2 : s0.head?.getD 0 ≠ r0.head?.getD 0 := by
    simpa [List.headD_eq_head?_getD] using hne
  have hset : setChild (r0.headD 0) (.mk r0 (some v) ([] : List (Nat × Node V)))
      (setChild (s0.headD 0) (.mk s0 c.val c.children) []) =
      [(s0.headD 0, .mk s0 c.val c.children), (r0.headD 0, .mk r0 (some v) [])] := by
    simp [setChild, hne2]
  rw [hset, mem_entriesAux (n := c), hck]
  simp only [mem_entriesAux_mk2, entriesList_cons, entriesList_nil, List.append_nil,
    List.nil_append, List.mem_append, Option.some.injEq]
  constructor
  · rintro (⟨hv, _⟩ | (h | h) | (⟨rfl, rfl⟩ | h))
    · exact Option.noConfusion hv
    · exact Or.inr (Or.inl h)
    · exact Or.inr (Or.inr h)
    · exact Or.inl ⟨rfl, rfl⟩
    · simp at h
  · rintro (⟨rfl, rfl⟩ | (h | h))
    · exact Or.inr (Or.inr (Or.inl ⟨rfl, rfl⟩))
    · exact Or.inr (Or.inl (Or.inl h))
    · exact Or.inr (Or.inl (Or.inr h))

/-- Entries of the recursively-updated child in terms of the old child. -/
theorem entriesAux_recurse_node {c c' : Node V} {rem : List Nat} {v : V}
    (hrem : rem ≠ []) (hk : c'.key = c.key) (hv : c'.val = c.val)
    (hch : ∀ s w, ((s, w) ∈ entriesList c'.children [] ↔
      (s = rem ∧ w = v) ∨ ((s, w) ∈ entriesList c.children [] ∧ s ≠ rem)))
    (k : List Nat) (w : V) :
    ((k, w) ∈ entriesAux c' [] ↔
      (k = c.key ++ rem ∧ w = v) ∨ ((k, w) ∈ entriesAux c [] ∧ k ≠ c.key ++ rem)) := by
  rw [mem_entriesAux (n := c'), mem_entriesAux (n := c), hk, hv]
  simp only [List.nil_append]
  rw [mem_entriesList_shift, mem_entriesList_shift]
  have hckne : c.key ≠ c.key ++ rem := by
    intro hc
    have hlen := congrArg List.length hc
    rw [List.length_append] at hlen
    exact hrem (List.eq_nil_of_length_eq_zero (by omega))
  constructor
  · rintro (⟨hv2, rfl⟩ | ⟨s, rfl, hs⟩)
    · exact Or.inr ⟨Or.inl ⟨hv2, rfl⟩, hckne⟩
    · rcases (hch s w).mp hs with ⟨rfl, rfl⟩ | ⟨hmem, hne⟩
      · exact Or.inl ⟨rfl, rfl⟩
      · refine Or.inr ⟨Or.inr ⟨s, rfl, hmem⟩, ?_⟩
        intro hc
        exact hne (List.append_cancel_left hc)
  · rintro (⟨rfl, rfl⟩ | ⟨(⟨hv2, rfl⟩ | ⟨s, rfl, hmem⟩), hne⟩)
    · exact Or.inr ⟨rem, rfl, (hch rem _).mpr (Or.inl ⟨rfl, rfl⟩)⟩
    · exact Or.inl ⟨hv2, rfl⟩
    · refine Or.inr ⟨s, rfl, (hch s w).mpr (Or.inr ⟨hmem, ?_⟩)⟩
      rintro rfl
      exact hne rfl

/-- Common outer shell: replacing the child at byte `b` by a node whose
entries are the old child's entries plus/modulo the inserted key. -/
theorem insert_outer {nk : List Nat} {nv : Option V} {cs : List (Nat × Node V)}
    {b : Nat} {c C : Node V} {key : List Nat} {v : V}
    (hg : Good (.mk nk nv cs)) (hl : lookupChild b cs = some c)
    (hkey : key.head? = some b)
    (hC : ∀ k w, ((k, w) ∈ entriesAux C [] ↔
      (k = key ∧ w = v) ∨ ((k, w) ∈ entriesAux c [] ∧ k ≠ key))) :
    ∀ k w, ((k, w) ∈ entriesList (setChild b C cs) [] ↔
      (k = key ∧ w = v) ∨ ((k, w) ∈ entriesList cs [] ∧ k ≠ key)) := by
  intro k w
  have nd : (cs.map Prod.fst).Nodup := hg.nodup
  have hH : ∀ b2 d, (b2, d) ∈ cs → d.key.head? = some b2 :=
    fun b2 d hm2 => hg.child_head hm2
  rw [mem_entriesList_setChild nd, mem_entriesList_decomp hg hl, hC]
  constructor
  · rintro ((⟨rfl, rfl⟩ | ⟨hmem, hne⟩) | hothers)
    · exact Or.inl ⟨rfl, rfl⟩
    · exact Or.inr ⟨Or.inl hmem, hne⟩
    · refine Or.inr ⟨Or.inr hothers, ?_⟩
      have hne2 := others_head_ne hH hothers
      intro hc
      subst hc
      exact hne2 hkey
  · rintro (⟨rfl, rfl⟩ | ⟨(hmem | hothers), hne⟩)
    · exact Or.inl (Or.inl ⟨rfl, rfl⟩)
    · exact Or.inl (Or.inr ⟨hmem, hne⟩)
    · exact Or.inr hothers

/-- Entries spec for `insert`: at child level, inserting `key ↦ v` adds the
entry `(key, v)` and keeps exactly the entries at other keys. -/
theorem insert_entries : ∀ (n : Node V) (key : List Nat) (v : V), key ≠ [] → Good n →
    ∀ k w, ((k, w) ∈ entriesList (insertAux n key v).children [] ↔
      (k = key ∧ w = v) ∨ ((k, w) ∈ entriesList n.children [] ∧ k ≠ key)) := by
  intro n key v
  induction n, key, v using insertAux.induct with
  | case1 nk nv cs v =>
    intro hne _
    exact absurd rfl hne
  | case2 nk nv cs v b tail hemp =>
    intro _ hg k w
    have hcs : cs = [] := List.isEmpty_iff.mp hemp
    subst hcs
    rw [insertAux_empty nk nv b tail v (by simp)]
    simp only [Node.children_mk, setChild, entriesList_cons, entriesList_nil,
      List.append_nil, entriesAux_leaf, List.nil_append]
    constructor
    · intro hm
      simp at hm
      exact Or.inl ⟨hm.1, hm.2⟩
    · rintro (⟨rfl, rfl⟩ | ⟨hmem, _⟩)
      · simp
      · simp at hmem
  | case3 nk nv cs v b tail hemp hl =>
    intro _ hg k w
    rw [insertAux_none nk nv b tail v hemp hl]
    have nd : (cs.map Prod.fst).Nodup := hg.nodup
    simp only [Node.children_mk]
    rw [mem_entriesList_setChild nd]
    simp only [entriesAux_leaf, List.nil_append]
    constructor
    · rintro (hm | hothers)
      · simp at hm
        exact Or.inl ⟨hm.1, hm.2⟩
      · refine Or.inr ⟨mem_entriesList.mpr ?_, ?_⟩
        · obtain ⟨b2, d, hmm, hne2, hd⟩ := hothers
          exact ⟨b2, d, hmm, hd⟩
        · have hne2 := others_head_ne (fun b2 d hm2 => hg.child_head hm2) hothers
          intro hc
          subst hc
          exact hne2 (by simp)
    · rintro (⟨rfl, rfl⟩ | ⟨hmem, hne2⟩)
      · exact Or.inl (by simp)
      · obtain ⟨b2, d, hmm, hd⟩ := mem_entriesList.mp hmem
        have hb2 : b2 ≠ b := by
          rintro rfl
          exact (lookupChild_eq_none.mp hl) (List.mem_map.mpr ⟨(b2, d), hmm, rfl⟩)
        exact Or.inr ⟨b2, d, hmm, hb2, hd⟩
  | case4 nk nv cs v b tail hemp c hl p hp =>
    intro _ hg k w
    have hp' : commonPrefixLen (b :: tail) c.key = (b :: tail).length ∧
        commonPrefixLen (b :: tail) c.key = c.key.length := hp
    rw [insertAux_found nk nv b tail v hemp hl]
    dsimp only
    rw [if_pos hp']
    have hm := lookupChild_mem hl
    have hgc := hg.child hm
    have hkc : (b :: tail) = c.key := eq_of_cpl_both hp'.1 hp'.2
    simp only [Node.children_mk]
    conv_rhs => rw [hkc]
    exact insert_outer hg hl (hg.child_head hm)
      (entriesAux_overwrite_node hgc) k w
  | case5 nk nv cs v b tail hemp c hl p hnb hpk =>
    intro _ hg k w
    have hnb' : ¬ (commonPrefixLen (b :: tail) c.key = (b :: tail).length ∧
        commonPrefixLen (b :: tail) c.key = c.key.length) := hnb
    have hpk' : commonPrefixLen (b :: tail) c.key = (b :: tail).length := hpk
    rw [insertAux_found nk nv b tail v hemp hl]
    dsimp only
    rw [if_neg hnb', if_pos hpk']
    have hm := lookupChild_mem hl
    have hgc := hg.child hm
    have hplt : commonPrefixLen (b :: tail) c.key < c.key.length := by
      have h1 := cpl_le_right (b :: tail) c.key
      have h2 : ¬ commonPrefixLen (b :: tail) c.key = c.key.length :=
        fun hc => hnb' ⟨hpk', hc⟩
      omega
    have hcsuf : c.key.drop (commonPrefixLen (b :: tail) c.key) ≠ [] :=
      drop_ne_nil_of_lt hplt
    rw [if_pos hcsuf]
    have hckey : c.key = (b :: tail) ++ c.key.drop (commonPrefixLen (b :: tail) c.key) := by
      conv_lhs => rw [← List.take_append_drop (commonPrefixLen (b :: tail) c.key) c.key]
      congr 1
      rw [← take_cpl (b :: tail) c.key, hpk', List.take_length]
    have hlt2 : (b :: tail).length < c.key.length := hpk' ▸ hplt
    simp only [Node.children_mk]
    refine insert_outer hg hl (by simp) (fun k w => ?_) k w
    rw [entriesAux_split_node hckey k w]
    constructor
    · rintro (⟨rfl, rfl⟩ | hmem)
      · exact Or.inl ⟨rfl, rfl⟩
      · exact Or.inr ⟨hmem, entriesAux_ne_of_strict hlt2 hmem⟩
    · rintro (⟨rfl, rfl⟩ | ⟨hmem, _⟩)
      · exact Or.inl ⟨rfl, rfl⟩
      · exact Or.inr hmem
  | case6 nk nv cs v b tail hemp c hl p hnb hnpk hpc ih =>
    intro _ hg k w
    have hnb' : ¬ (commonPrefixLen (b :: tail) c.key = (b :: tail).length ∧
        commonPrefixLen (b :: tail) c.key = c.key.length) := hnb
    have hnpk' : ¬ commonPrefixLen (b :: tail) c.key = (b :: tail).length := hnpk
    have hpc' : commonPrefixLen (b :: tail) c.key = c.key.length := hpc
    rw [insertAux_found nk nv b tail v hemp hl]
    dsimp only
    rw [if_neg hnb', if_neg hnpk', if_pos hpc']
    have hm := lookupChild_mem hl
    have hgc := hg.child hm
    have hplt : commonPrefixLen (b :: tail) c.key < (b :: tail).length := by
      have h1 := cpl_le_left (b :: tail) c.key
      omega
    have hrem : (b :: tail).drop (commonPrefixLen (b :: tail) c.key) ≠ [] :=
      drop_ne_nil_of_lt hplt
    have hkey : (b :: tail) =
        c.key ++ (b :: tail).drop (commonPrefixLen (b :: tail) c.key) := by
      conv_lhs => rw [← List.take_append_drop (commonPrefixLen (b :: tail) c.key) (b :: tail)]
      congr 1
      rw [take_cpl (b :: tail) c.key, hpc', List.take_length]
    have hckne : c.key ≠ [] := by
      have hh := hg.child_head hm
      intro hc
      rw [hc] at hh
      exact Option.noConfusion hh
    have hIH := ih (drop_ne_nil_of_lt hplt) hgc
    simp only [Node.children_mk]
    conv_rhs => rw [hkey]
    refine insert_outer hg hl ?_ (fun k w => ?_) k w
    · rw [head?_append_left hckne]
      exact hg.child_head hm
    · exact entriesAux_recurse_node hrem (insertAux_key c _ v) (insertAux_val c _ v)
        (fun s w2 => hIH s w2) k w
  | case7 nk nv cs v b tail hemp c hl p hnb hnpk hnpc =>
    intro _ hg k w
    have hnb' : ¬ (commonPrefixLen (b :: tail) c.key = (b :: tail).length ∧
        commonPrefixLen (b :: tail) c.key = c.key.length) := hnb
    have hnpk' : ¬ commonPrefixLen (b :: tail) c.key = (b :: tail).length := hnpk
    have hnpc' : ¬ commonPrefixLen (b :: tail) c.key = c.key.length := hnpc
    rw [insertAux_found nk nv b tail v hemp hl]
    dsimp only
    rw [if_neg hnb', if_neg hnpk', if_neg hnpc']
    have hm := lookupChild_mem hl
    have hgc := hg.child hm
    have hkeylt : commonPrefixLen (b :: tail) c.key < (b :: tail).length := by
      have h1 := cpl_le_left (b :: tail) c.key
      omega
    have hcklt : commonPrefixLen (b :: tail) c.key < c.key.length := by
      have h1 := cpl_le_right (b :: tail) c.key
      omega
    have hks : (b :: tail).drop (commonPrefixLen (b :: tail) c.key) ≠ [] :=
      drop_ne_nil_of_lt hkeylt
    have hcsuf : c.key.drop (commonPrefixLen (b :: tail) c.key) ≠ [] :=
      drop_ne_nil_of_lt hcklt
    rw [if_pos hks]
    have hne0 := cpl_headD_ne hkeylt hcklt
    have hkey : (b :: tail) = (b :: tail).take (commonPrefixLen (b :: tail) c.key) ++
        (b :: tail).drop (commonPrefixLen (b :: tail) c.key) :=
      (List.take_append_drop _ _).symm
    have hckey : c.key = (b :: tail).take (commonPrefixLen (b :: tail) c.key) ++
        c.key.drop (commonPrefixLen (b :: tail) c.key) := by
      conv_lhs => rw [← List.take_append_drop (commonPrefixLen (b :: tail) c.key) c.key]
      congr 1
      rw [take_cpl (b :: tail) c.key]
    have hone : 1 ≤ commonPrefixLen (b :: tail) c.key :=
      one_le_cpl_of_head (hg.child_head hm)
    have htake : ((b :: tail).take (commonPrefixLen (b :: tail) c.key)) ≠ [] := by
      intro hc
      have := congrArg List.length hc
      simp at this
      omega
    have hcne : ∀ (s : List Nat), c.key ++ s ≠ b :: tail := by
      intro s hc
      have hd : (c.key ++ s).drop (commonPrefixLen (b :: tail) c.key) =
          (b :: tail).drop (commonPrefixLen (b :: tail) c.key) := by rw [hc]
      rw [List.drop_append_of_le_length (le_of_lt hcklt)] at hd
      have h3 := congrArg (fun l => l.headD 0) hd
      simp only at h3
      rw [headD_append_of_ne_nil hcsuf] at h3
      exact hne0 h3.symm
    simp only [Node.children_mk]
    conv_rhs => rw [hkey]
    refine insert_outer hg hl ?_ (fun k w => ?_) k w
    · rw [head?_append_left htake]
      exact (head_take_of_pos hone)
    · rw [entriesAux_split2_node hckey (fun hc => hne0 hc.symm) k w]
      constructor
      · rintro (⟨rfl, rfl⟩ | hmem)
        · exact Or.inl ⟨rfl, rfl⟩
        · refine Or.inr ⟨hmem, ?_⟩
          obtain ⟨s, rfl⟩ := entriesAux_key_shape hmem
          exact hkey ▸ hcne s
      · rintro (⟨rfl, rfl⟩ | ⟨hmem, _⟩)
        · exact Or.inl ⟨rfl, rfl⟩
        · exact Or.inr hmem

theorem headD_eq_of_head? {l : List Nat} {b : Nat} (h : l.head? = some b) :
    l.headD 0 = b := by
  cases l with
  | nil => simp at h
  | cons x xs => simpa using h

/-- Soundness of `findNode`: a successful lookup of `key` that lands on a
valued node corresponds to an entry `(key, value)` of the subtree. -/
theorem findNodeAux_sound : ∀ (n : Node V) (key : List Nat), ∀ {c' : Node V},
    findNodeAux n key = some c' → ∀ w, c'.val = some w →
    (key, w) ∈ entriesList n.children [] := by
  intro n key
  induction n, key using findNodeAux.induct with
  | case1 nk nv cs key hemp =>
    intro c' hf
    rw [findNodeAux_leaf nk nv key hemp] at hf
    cases hf
  | case2 nk nv cs key hemp hl =>
    intro c' hf
    rw [findNodeAux_none nk nv key hemp hl] at hf
    cases hf
  | case3 nk nv cs key hemp c hl hgt =>
    intro c' hf
    rw [findNodeAux_found nk nv key hemp hl, if_pos hgt] at hf
    cases hf
  | case4 nk nv cs key hemp c hl hgt hne =>
    intro c' hf
    rw [findNodeAux_found nk nv key hemp hl, if_neg hgt, if_pos hne] at hf
    cases hf
  | case5 nk nv cs key hemp c hl hgt hne hlen =>
    intro c' hf w hw
    rw [findNodeAux_found nk nv key hemp hl, if_neg hgt, if_neg hne, if_pos hlen] at hf
    have hc : c = c' := Option.some.inj hf
    rw [← hc] at hw
    have hkc : key = c.key := by
      have h1 : ¬ key.take c.key.length ≠ c.key := hne
      rw [not_not] at h1
      rw [← h1, hlen, List.take_length]
    refine mem_entriesList.mpr ⟨key.headD 0, c, lookupChild_mem hl, ?_⟩
    exact mem_entriesAux_node.mpr (Or.inl ⟨hw, hkc⟩)
  | case6 nk nv cs key hemp c hl hgt hne hlen ih =>
    intro c' hf w hw
    rw [findNodeAux_found nk nv key hemp hl, if_neg hgt, if_neg hne, if_neg hlen] at hf
    have hmem := ih hf w hw
    have htake : key.take c.key.length = c.key := by
      have h1 : ¬ key.take c.key.length ≠ c.key := hne
      rwa [not_not] at h1
    refine mem_entriesList.mpr ⟨key.headD 0, c, lookupChild_mem hl, ?_⟩
    refine mem_entriesAux_node.mpr (Or.inr ⟨key.drop c.key.length, ?_, hmem⟩)
    conv_lhs => rw [← List.take_append_drop c.key.length key]
    rw [htake]

/-- Completeness of `findNode` on `Good` trees: every entry is found. -/
theorem findNodeAux_complete : ∀ (n : Node V), Good n → ∀ (key : List Nat) (w : V),
    (key, w) ∈ entriesList n.children [] →
    ∃ c', findNodeAux n key = some c' ∧ c'.val = some w := by
  intro n
  induction n using Node.recStrong with
  | _ nk nv cs IH =>
    intro hg key w hmem
    simp only [Node.children_mk] at hmem
    obtain ⟨b, c, hm, hd⟩ := mem_entriesList.mp hmem
    have hgc : Good c := hg.child hm
    have hhead : c.key.head? = some b := hg.child_head hm
    have hckne : c.key ≠ [] := by
      intro hc
      rw [hc] at hhead
      exact Option.noConfusion hhead
    have hemp : ¬ (cs.isEmpty : Prop) := by
      cases cs with
      | nil => simp at hm
      | cons hd2 tl => simp
    have nd : (cs.map Prod.fst).Nodup := hg.nodup
    rcases (mem_entriesAux_good hgc).mp hd with ⟨hv, rfl⟩ | ⟨s, hs, rfl, hmem2⟩
    · -- the entry is the child's own value
      have hhd : c.key.headD 0 = b := headD_eq_of_head? hhead
      have hl : lookupChild (c.key.headD 0) cs = some c := by
        rw [hhd]
        exact lookupChild_of_mem nd hm
      refine ⟨c, ?_, hv⟩
      rw [findNodeAux_found nk nv c.key hemp hl]
      rw [if_neg (by omega), if_neg (by rw [not_not, List.take_length]), if_pos rfl]
    · -- the entry lies deeper in the child's subtree
      have hhd : (c.key ++ s).headD 0 = b := by
        rw [headD_append_of_ne_nil hckne]
        exact headD_eq_of_head? hhead
      have hl : lookupChild ((c.key ++ s).headD 0) cs = some c := by
        rw [hhd]
        exact lookupChild_of_mem nd hm
      obtain ⟨c', hf, hv⟩ := IH b c hm hgc s w hmem2
      refine ⟨c', ?_, hv⟩
      rw [findNodeAux_found nk nv (c.key ++ s) hemp hl]
      have hslen : 0 < s.length := by
        cases s with
        | nil => exact absurd rfl hs
        | cons a tl => simp
      have hc1 : ¬ c.key.length > (c.key ++ s).length := by
        rw [List.length_append]
        omega
      have hc3 : ¬ c.key.length = (c.key ++ s).length := by
        rw [List.length_append]
        omega
      rw [if_neg hc1, if_neg (by rw [not_not, List.take_left]), if_neg hc3, List.drop_left]
      exact hf

/-- The tree-level invariant: the root is `Good`, has the empty key segment,
and never carries a value (as built by `tree.New` / `Insert` / `Delete`). -/
def TreeGood (t : Tree V) : Prop := Good t.root ∧ t.root.key = [] ∧ t.root.val = none

/-- The key/value pairs stored in a tree. -/
def entries (t : Tree V) : List (List Nat × V) := entriesAux t.root []

theorem mem_entries_iff {t : Tree V} (hg : TreeGood t) {key : List Nat} {w : V} :
    (key, w) ∈ entries t ↔ (key, w) ∈ entriesList t.root.children [] := by
  obtain ⟨hgood, hkey, hval⟩ := hg
  unfold entries
  rw [mem_entriesAux, hval, hkey]
  simp

/-- `Get` agrees with the entries of the tree. -/
theorem Get_eq_entries {t : Tree V} (hg : TreeGood t) (key : List Nat) (w : V) :
    (t.Get key = some w ↔ (key, w) ∈ entries t) := by
  obtain ⟨hgood, hkey, hval⟩ := hg
  rw [mem_entries_iff ⟨hgood, hkey, hval⟩]
  unfold Tree.Get Tree.findNode
  constructor
  · intro h
    by_cases hk : key = []
    · simp [hk] at h
    · simp only [if_neg hk] at h
      match hf : findNodeAux t.root key with
      | none => rw [hf] at h; cases h
      | some c' =>
        rw [hf] at h
        exact findNodeAux_sound t.root key hf w h
  · intro h
    have hk : key ≠ [] :=
      mem_entriesList_nil_ne (fun b2 d hm2 => hgood.child_head hm2) h
    obtain ⟨c', hf, hv⟩ := findNodeAux_complete t.root hgood key w h
    simp only [if_neg hk]
    rw [hf]
    exact hv

theorem deleteAux_mk_shape (nk : List Nat) (nv : Option V) (cs : List (Nat × Node V))
    (key : List Nat) :
    ∃ cs' ok, deleteAux (.mk nk nv cs) key = (.mk nk nv cs', ok) := by
  cases key with
  | nil => exact ⟨cs, false, deleteAux_nil nk nv cs⟩
  | cons b tail =>
    match hl : lookupChild b cs with
    | none => exact ⟨cs, false, deleteAux_none nk nv b tail hl⟩
    | some c =>
      rw [deleteAux_found nk nv b tail hl]
      dsimp only
      split_ifs <;> first
        | exact ⟨_, _, rfl⟩
        | (split <;> exact ⟨_, _, rfl⟩)

theorem deleteAux_key (n : Node V) (key : List Nat) :
    (deleteAux n key).1.key = n.key := by
  obtain ⟨nk, nv, cs⟩ := n
  obtain ⟨cs', ok, h⟩ := deleteAux_mk_shape nk nv cs key
  rw [h]
  rfl

theorem deleteAux_val (n : Node V) (key : List Nat) :
    (deleteAux n key).1.val = n.val := by
  obtain ⟨nk, nv, cs⟩ := n
  obtain ⟨cs', ok, h⟩ := deleteAux_mk_shape nk nv cs key
  rw [h]
  rfl

/-- A failed delete does not modify the tree (mirrors that all `false`-paths
of the Go code perform no mutation). -/
theorem deleteAux_false_eq : ∀ (n : Node V) (key : List Nat),
    (deleteAux n key).2 = false → (deleteAux n key).1 = n := by
  intro n key
  induction n, key using deleteAux.induct with
  | case1 nk nv cs =>
    intro _
    rw [deleteAux_nil]
  | case2 nk nv cs b tail hl =>
    intro _
    rw [deleteAux_none nk nv b tail hl]
  | case3 nk nv cs b tail c hl hmm =>
    intro _
    rw [deleteAux_found nk nv b tail hl]
    dsimp only
    rw [if_pos hmm]
  | case4 nk nv cs b tail c hl hne hvn hmm hlen =>
    intro _
    rw [deleteAux_found nk nv b tail hl]
    dsimp only
    rw [if_neg hmm, if_pos hlen, if_pos hne, if_pos hvn]
  | case5 nk nv cs b tail c hl hne hnvn hmm hlen =>
    intro hfalse
    rw [deleteAux_found nk nv b tail hl] at hfalse
    dsimp only at hfalse
    rw [if_neg hmm, if_pos hlen, if_pos hne, if_neg hnvn] at hfalse
    cases hfalse
  | case6 nk nv cs b tail c hl hnne hmm hlen =>
    intro hfalse
    rw [deleteAux_found nk nv b tail hl] at hfalse
    dsimp only at hfalse
    rw [if_neg hmm, if_pos hlen, if_neg hnne] at hfalse
    cases hfalse
  | case7 nk nv cs b tail c hl hmm hnlen r hr2 hch hval ih =>
    intro hfalse
    have hr2' : (deleteAux c ((b :: tail).drop c.key.length)).2 = true := hr2
    have hch' : (deleteAux c ((b :: tail).drop c.key.length)).1.children = [] := hch
    have hval' : (deleteAux c ((b :: tail).drop c.key.length)).1.val = none := hval
    rw [deleteAux_found nk nv b tail hl] at hfalse
    dsimp only at hfalse
    rw [if_neg hmm, if_neg hnlen, if_pos hr2', hval', hch'] at hfalse
    cases hfalse
  | case8 nk nv cs b tail c hl fst g hmm hnlen r hr2 hch hval ih =>
    intro hfalse
    have hr2' : (deleteAux c ((b :: tail).drop c.key.length)).2 = true := hr2
    have hch' : (deleteAux c ((b :: tail).drop c.key.length)).1.children = [(fst, g)] := hch
    have hval' : (deleteAux c ((b :: tail).drop c.key.length)).1.val = none := hval
    rw [deleteAux_found nk nv b tail hl] at hfalse
    dsimp only at hfalse
    rw [if_neg hmm, if_neg hnlen, if_pos hr2', hval', hch'] at hfalse
    cases hfalse
  | case9 nk nv cs b tail c hl hmm hnlen r hr2 hno1 hno2 ih =>
    intro hfalse
    have hr2' : (deleteAux c ((b :: tail).drop c.key.length)).2 = true := hr2
    rw [deleteAux_found nk nv b tail hl] at hfalse
    dsimp only at hfalse
    rw [if_neg hmm, if_neg hnlen, if_pos hr2'] at hfalse
    split at hfalse <;> cases hfalse
  | case10 nk nv cs b tail c hl hmm hnlen r hnr2 ih =>
    intro _
    have hnr2' : ¬ (deleteAux c ((b :: tail).drop c.key.length)).2 = true := hnr2
    rw [deleteAux_found nk nv b tail hl]
    dsimp only
    rw [if_neg hmm, if_neg hnlen, if_neg hnr2']
    have hr1 : (deleteAux c ((b :: tail).drop c.key.length)).1 = c :=
      ih (Bool.not_eq_true _ ▸ hnr2')
    rw [hr1, setChild_lookup_self hl]

theorem good_removeChild {nk : List Nat} {nv : Option V} {cs : List (Nat × Node V)}
    {b : Nat} (hg : Good (.mk nk nv cs)) : Good (.mk nk nv (removeChild b cs)) := by
  rw [good_mk_iff]
  have nd : (cs.map Prod.fst).Nodup := hg.nodup
  refine ⟨nodup_removeChild nd, ?_, ?_⟩
  · intro b2 d hm
    exact hg.child_head ((removeChild_sublist b cs).mem hm)
  · intro b2 d hm
    exact hg.child ((removeChild_sublist b cs).mem hm)

theorem head?_key_ne_nil {c : Node V} {b : Nat} (h : c.key.head? = some b) :
    c.key ≠ [] := by
  intro hc
  rw [hc] at h
  exact Option.noConfusion h

/-- `delete` preserves the structural invariant. -/
theorem deleteAux_good : ∀ (n : Node V) (key : List Nat),
    Good n → Good (deleteAux n key).1 := by
  intro n key
  induction n, key using deleteAux.induct with
  | case1 nk nv cs =>
    intro hg
    rw [deleteAux_nil]
    exact hg
  | case2 nk nv cs b tail hl =>
    intro hg
    rw [deleteAux_none nk nv b tail hl]
    exact hg
  | case3 nk nv cs b tail c hl hmm =>
    intro hg
    rw [deleteAux_found nk nv b tail hl]
    dsimp only
    rw [if_pos hmm]
    exact hg
  | case4 nk nv cs b tail c hl hne hvn hmm hlen =>
    intro hg
    rw [deleteAux_found nk nv b tail hl]
    dsimp only
    rw [if_neg hmm, if_pos hlen, if_pos hne, if_pos hvn]
    exact hg
  | case5 nk nv cs b tail c hl hne hnvn hmm hlen =>
    intro hg
    rw [deleteAux_found nk nv b tail hl]
    dsimp only
    rw [if_neg hmm, if_pos hlen, if_pos hne, if_neg hnvn]
    have hm := lookupChild_mem hl
    exact good_setChild hg (by simpa using hg.child_head hm)
      (good_of_children _ _ (hg.child hm))
  | case6 nk nv cs b tail c hl hnne hmm hlen =>
    intro hg
    rw [deleteAux_found nk nv b tail hl]
    dsimp only
    rw [if_neg hmm, if_pos hlen, if_neg hnne]
    exact good_removeChild hg
  | case7 nk nv cs b tail c hl hmm hnlen r hr2 hch hval ih =>
    intro hg
    have hr2' : (deleteAux c ((b :: tail).drop c.key.length)).2 = true := hr2
    have hch' : (deleteAux c ((b :: tail).drop c.key.length)).1.children = [] := hch
    have hval' : (deleteAux c ((b :: tail).drop c.key.length)).1.val = none := hval
    rw [deleteAux_found nk nv b tail hl]
    dsimp only
    rw [if_neg hmm, if_neg hnlen, if_pos hr2', hval', hch']
    exact good_removeChild hg
  | case8 nk nv cs b tail c hl fst g hmm hnlen r hr2 hch hval ih =>
    intro hg
    have hr2' : (deleteAux c ((b :: tail).drop c.key.length)).2 = true := hr2
    have hch' : (deleteAux c ((b :: tail).drop c.key.length)).1.children = [(fst, g)] := hch
    have hval' : (deleteAux c ((b :: tail).drop c.key.length)).1.val = none := hval
    rw [deleteAux_found nk nv b tail hl]
    dsimp only
    rw [if_neg hmm, if_neg hnlen, if_pos hr2', hval', hch']
    have hm := lookupChild_mem hl
    have hgr : Good (deleteAux c ((b :: tail).drop c.key.length)).1 := ih (hg.child hm)
    have hgmem : (fst, g) ∈ (deleteAux c ((b :: tail).drop c.key.length)).1.children := by
      rw [hch']
      simp
    have hgg : Good g := hgr.child hgmem
    have hghead : g.key.head? = some fst := hgr.child_head hgmem
    have hckh : c.key.head? = some b := hg.child_head hm
    refine good_setChild hg ?_ (good_of_children _ _ hgg)
    rw [Node.key_mk, deleteAux_key, head?_append_left (head?_key_ne_nil hckh)]
    exact hckh
  | case9 nk nv cs b tail c hl hmm hnlen r hr2 hno1 hno2 ih =>
    intro hg
    have hr2' : (deleteAux c ((b :: tail).drop c.key.length)).2 = true := hr2
    rw [deleteAux_found nk nv b tail hl]
    dsimp only
    rw [if_neg hmm, if_neg hnlen, if_pos hr2']
    have hm := lookupChild_mem hl
    have hgr : Good (deleteAux c ((b :: tail).drop c.key.length)).1 := ih (hg.child hm)
    split
    · rename_i x1 x2 heq1 heq2
      exact (hno1 heq1 heq2).elim
    · rename_i x1 x2 fst2 g2 heq1 heq2
      exact (hno2 fst2 g2 heq1 heq2).elim
    · refine good_setChild hg ?_ hgr
      rw [deleteAux_key]
      exact hg.child_head hm
  | case10 nk nv cs b tail c hl hmm hnlen r hnr2 ih =>
    intro hg
    have hnr2' : ¬ (deleteAux c ((b :: tail).drop c.key.length)).2 = true := hnr2
    rw [deleteAux_found nk nv b tail hl]
    dsimp only
    rw [if_neg hmm, if_neg hnlen, if_neg hnr2']
    have hm := lookupChild_mem hl
    refine good_setChild hg ?_ (ih (hg.child hm))
    rw [deleteAux_key]
    exact hg.child_head hm

/-! ### Entries spec for `delete` -/

theorem key_eq_of_whole {key ck : List Nat}
    (hmm : ¬(key.length < ck.length ∨ key.take ck.length ≠ ck))
    (hlen : key.length = ck.length) : key = ck := by
  push_neg at hmm
  calc key = key.take key.length := (List.take_length key).symm
  _ = key.take ck.length := by rw [hlen]
  _ = ck := hmm.2

theorem key_decomp_of_conds {key ck : List Nat}
    (hmm : ¬(key.length < ck.length ∨ key.take ck.length ≠ ck)) :
    key = ck ++ key.drop ck.length := by
  push_neg at hmm
  conv_lhs => rw [← List.take_append_drop ck.length key]
  rw [hmm.2]

/-- An entry of the children list whose key starts with byte `b` lies inside
the child registered at `b`. -/
theorem mem_entries_at_child {nk : List Nat} {nv : Option V} {cs : List (Nat × Node V)}
    {b : Nat} {c : Node V} (hg : Good (.mk nk nv cs)) (hl : lookupChild b cs = some c)
    {k : List Nat} {w : V} (hmem : (k, w) ∈ entriesList cs []) (hh : k.head? = some b) :
    (k, w) ∈ entriesAux c [] := by
  rcases (mem_entriesList_decomp hg hl).mp hmem with h | hothers
  · exact h
  · exact absurd hh (others_head_ne (fun b2 d hm2 => hg.child_head hm2) hothers)

theorem delete_outer_set {nk : List Nat} {nv : Option V} {cs : List (Nat × Node V)}
    {b : Nat} {c C : Node V} {key : List Nat}
    (hg : Good (.mk nk nv cs)) (hl : lookupChild b cs = some c)
    (hkeyh : key.head? = some b)
    (hC : ∀ k w, ((k, w) ∈ entriesAux C [] ↔ ((k, w) ∈ entriesAux c [] ∧ k ≠ key))) :
    ∀ k w, ((k, w) ∈ entriesList (setChild b C cs) [] ↔
      ((k, w) ∈ entriesList cs [] ∧ k ≠ key)) := by
  intro k w
  have nd : (cs.map Prod.fst).Nodup := hg.nodup
  have hH : ∀ b2 d, (b2, d) ∈ cs → d.key.head? = some b2 :=
    fun b2 d hm2 => hg.child_head hm2
  rw [mem_entriesList_setChild nd, mem_entriesList_decomp hg hl, hC]
  constructor
  · rintro (⟨hmem, hne⟩ | hothers)
    · exact ⟨Or.inl hmem, hne⟩
    · refine ⟨Or.inr hothers, ?_⟩
      have hne2 := others_head_ne hH hothers
      intro hc
      subst hc
      exact hne2 hkeyh
  · rintro ⟨(hmem | hothers), hne⟩
    · exact Or.inl ⟨hmem, hne⟩
    · exact Or.inr hothers

theorem delete_outer_remove {nk : List Nat} {nv : Option V} {cs : List (Nat × Node V)}
    {b : Nat} {c : Node V} {key : List Nat}
    (hg : Good (.mk nk nv cs)) (hl : lookupChild b cs = some c)
    (hkeyh : key.head? = some b)
    (hC : ∀ k w, (k, w) ∈ entriesAux c [] → k = key) :
    ∀ k w, ((k, w) ∈ entriesList (removeChild b cs) [] ↔
      ((k, w) ∈ entriesList cs [] ∧ k ≠ key)) := by
  intro k w
  have nd : (cs.map Prod.fst).Nodup := hg.nodup
  have hH : ∀ b2 d, (b2, d) ∈ cs → d.key.head? = some b2 :=
    fun b2 d hm2 => hg.child_head hm2
  rw [mem_entriesList_removeChild nd, mem_entriesList_decomp hg hl]
  constructor
  · intro hothers
    refine ⟨Or.inr hothers, ?_⟩
    have hne2 := others_head_ne hH hothers
    intro hc
    subst hc
    exact hne2 hkeyh
  · rintro ⟨(hmem | hothers), hne⟩
    · exact absurd (hC k w hmem) hne
    · exact hothers

theorem delete_outer_id {cs : List (Nat × Node V)} {key : List Nat}
    (hno : ∀ k w, (k, w) ∈ entriesList cs [] → k ≠ key) :
    ∀ k w, ((k, w) ∈ entriesList cs [] ↔
      ((k, w) ∈ entriesList cs [] ∧ k ≠ key)) :=
  fun k w => ⟨fun h => ⟨h, hno k w h⟩, fun h => h.1⟩

/-- Marking a node valueless drops exactly its own entry. -/
theorem entriesAux_mark_node {c : Node V} (hgc : Good c) :
    ∀ k w, ((k, w) ∈ entriesAux (.mk c.key none c.children) [] ↔
      ((k, w) ∈ entriesAux c [] ∧ k ≠ c.key)) := by
  intro k w
  rw [mem_entriesAux_mk2]
  simp only [List.nil_append]
  rw [mem_entriesList_shift, mem_entriesAux_good hgc]
  constructor
  · rintro (⟨hv, _⟩ | ⟨s, rfl, hmem⟩)
    · exact Option.noConfusion hv
    · have hs : s ≠ [] := mem_entriesList_nil_ne (fun b2 d hm2 => hgc.child_head hm2) hmem
      refine ⟨Or.inr ⟨s, hs, rfl, hmem⟩, ?_⟩
      intro hc
      have hlen := congrArg List.length hc
      rw [List.length_append] at hlen
      exact hs (List.eq_nil_of_length_eq_zero (by omega))
  · rintro ⟨(⟨hv, rfl⟩ | ⟨s, hs, rfl, hmem⟩), hne⟩
    · exact absurd rfl hne
    · exact Or.inr ⟨s, rfl, hmem⟩

/-- Entries of the merged node obtained by pulling the single grandchild up. -/
theorem entriesAux_merge_node {c g : Node V} {rem : List Nat}
    (hcval : c.val = none)
    (hg1 : ∀ s w, ((s, w) ∈ entriesAux g [] ↔
      ((s, w) ∈ entriesList c.children [] ∧ s ≠ rem))) :
    ∀ k w, ((k, w) ∈ entriesAux (.mk (c.key ++ g.key) g.val g.children) [] ↔
      ((k, w) ∈ entriesAux c [] ∧ k ≠ c.key ++ rem)) := by
  intro k w
  rw [mem_entriesAux_mk2]
  simp only [List.nil_append]
  have hstep : ((g.val = some w ∧ k = c.key ++ g.key) ∨
      (k, w) ∈ entriesList g.children (c.key ++ g.key))
      ↔ ∃ s, k = c.key ++ s ∧ (s, w) ∈ entriesAux g [] := by
    rw [mem_entriesList_shift]
    constructor
    · rintro (⟨hv, rfl⟩ | ⟨s, rfl, hmem⟩)
      · exact ⟨g.key, rfl, mem_entriesAux_node.mpr (Or.inl ⟨hv, rfl⟩)⟩
      · exact ⟨g.key ++ s, List.append_assoc _ _ _,
          mem_entriesAux_node.mpr (Or.inr ⟨s, rfl, hmem⟩)⟩
    · rintro ⟨s, rfl, hmem⟩
      rcases mem_entriesAux_node.mp hmem with ⟨hv, rfl⟩ | ⟨s2, rfl, hmem2⟩
      · exact Or.inl ⟨hv, rfl⟩
      · exact Or.inr ⟨s2, (List.append_assoc _ _ _).symm, hmem2⟩
  rw [hstep, mem_entriesAux_node]
  constructor
  · rintro ⟨s, rfl, hmem⟩
    obtain ⟨hmem2, hne⟩ := (hg1 s w).mp hmem
    refine ⟨Or.inr ⟨s, rfl, hmem2⟩, ?_⟩
    intro hc
    exact hne (List.append_cancel_left hc)
  · rintro ⟨(⟨hv, rfl⟩ | ⟨s, rfl, hmem2⟩), hne⟩
    · rw [hcval] at hv
      exact Option.noConfusion hv
    · refine ⟨s, rfl, (hg1 s w).mpr ⟨hmem2, ?_⟩⟩
      rintro rfl
      exact hne rfl

/-- Entries of the in-place updated child after a successful recursive
delete. -/
theorem entriesAux_shrink_node {c c' : Node V} {rem : List Nat} (hrem : rem ≠ [])
    (hk : c'.key = c.key) (hv : c'.val = c.val)
    (hch : ∀ s w, ((s, w) ∈ entriesList c'.children [] ↔
      ((s, w) ∈ entriesList c.children [] ∧ s ≠ rem))) :
    ∀ k w, ((k, w) ∈ entriesAux c' [] ↔
      ((k, w) ∈ entriesAux c [] ∧ k ≠ c.key ++ rem)) := by
  intro k w
  rw [mem_entriesAux (n := c'), mem_entriesAux (n := c), hk, hv]
  simp only [List.nil_append]
  rw [mem_entriesList_shift, mem_entriesList_shift]
  have hckne : c.key ≠ c.key ++ rem := by
    intro hc
    have hlen := congrArg List.length hc
    rw [List.length_append] at hlen
    exact hrem (List.eq_nil_of_length_eq_zero (by omega))
  constructor
  · rintro (⟨hv2, rfl⟩ | ⟨s, rfl, hs⟩)
    · exact ⟨Or.inl ⟨hv2, rfl⟩, hckne⟩
    · obtain ⟨hmem, hne⟩ := (hch s w).mp hs
      exact ⟨Or.inr ⟨s, rfl, hmem⟩, fun hc => hne (List.append_cancel_left hc)⟩
  · rintro ⟨(⟨hv2, rfl⟩ | ⟨s, rfl, hmem⟩), hne⟩
    · exact Or.inl ⟨hv2, rfl⟩
    · refine Or.inr ⟨s, rfl, (hch s w).mpr ⟨hmem, ?_⟩⟩
      rintro rfl
      exact hne rfl

/-- Entries spec for `delete`: at child level, deleting `key` removes exactly
the entry at `key` (when present) and keeps every other entry. -/
theorem delete_entries : ∀ (n : Node V) (key : List Nat), Good n →
    ∀ k w, ((k, w) ∈ entriesList (deleteAux n key).1.children [] ↔
      ((k, w) ∈ entriesList n.children [] ∧ k ≠ key)) := by
  intro n key
  induction n, key using deleteAux.induct with
  | case1 nk nv cs =>
    intro hg k w
    rw [deleteAux_nil]
    refine delete_outer_id (fun k w hmem => ?_) k w
    exact mem_entriesList_nil_ne (fun b2 d hm2 => hg.child_head hm2) hmem
  | case2 nk nv cs b tail hl =>
    intro hg k w
    rw [deleteAux_none nk nv b tail hl]
    refine delete_outer_id (fun k w hmem => ?_) k w
    rintro rfl
    obtain ⟨b2, d, hm2, hd⟩ := mem_entriesList.mp hmem
    have hh := mem_entriesAux_head (hg.child_head hm2) hd
    simp at hh
    refine (lookupChild_eq_none.mp hl) (List.mem_map.mpr ⟨(b2, d), hm2, ?_⟩)
    simp
    omega
  | case3 nk nv cs b tail c hl hmm =>
    intro hg k w
    rw [deleteAux_found nk nv b tail hl]
    dsimp only
    rw [if_pos hmm]
    refine delete_outer_id (fun k w hmem => ?_) k w
    rintro rfl
    have hinc := mem_entries_at_child hg hl hmem rfl
    obtain ⟨s, hks⟩ := entriesAux_key_shape hinc
    rcases hmm with hlt | hne
    · have hlen := congrArg List.length hks
      rw [List.length_append] at hlen
      omega
    · refine hne ?_
      rw [hks, List.take_left]
  | case4 nk nv cs b tail c hl hne hvn hmm hlen =>
    intro hg k w
    rw [deleteAux_found nk nv b tail hl]
    dsimp only
    rw [if_neg hmm, if_pos hlen, if_pos hne, if_pos hvn]
    have hgc := hg.child (lookupChild_mem hl)
    have hkeq : (b :: tail) = c.key := key_eq_of_whole hmm hlen
    refine delete_outer_id (fun k w hmem => ?_) k w
    rintro rfl
    have hinc := mem_entries_at_child hg hl hmem (by rw [hkeq]; exact hg.child_head (lookupChild_mem hl))
    rcases (mem_entriesAux_good hgc).mp hinc with ⟨hv, hk⟩ | ⟨s, hs, hk, _⟩
    · rw [Option.isNone_iff_eq_none] at hvn
      rw [hvn] at hv
      exact Option.noConfusion hv
    · rw [hkeq] at hk
      have hlen2 := congrArg List.length hk
      rw [List.length_append] at hlen2
      exact hs (List.eq_nil_of_length_eq_zero (by omega))
  | case5 nk nv cs b tail c hl hne hnvn hmm hlen =>
    intro hg k w
    rw [deleteAux_found nk nv b tail hl]
    dsimp only
    rw [if_neg hmm, if_pos hlen, if_pos hne, if_neg hnvn]
    have hm := lookupChild_mem hl
    have hgc := hg.child hm
    have hkeq : (b :: tail) = c.key := key_eq_of_whole hmm hlen
    simp only [Node.children_mk]
    rw [hkeq]
    exact delete_outer_set hg hl (hg.child_head hm) (entriesAux_mark_node hgc) k w
  | case6 nk nv cs b tail c hl hnne hmm hlen =>
    intro hg k w
    rw [deleteAux_found nk nv b tail hl]
    dsimp only
    rw [if_neg hmm, if_pos hlen, if_neg hnne]
    have hm := lookupChild_mem hl
    have hkeq : (b :: tail) = c.key := key_eq_of_whole hmm hlen
    have hcemp : c.children = [] := by
      rw [not_not] at hnne
      exact List.isEmpty_iff.mp hnne
    simp only [Node.children_mk]
    rw [hkeq]
    refine delete_outer_remove hg hl (hg.child_head hm) (fun k w hmem => ?_) k w
    rcases mem_entriesAux_node.mp hmem with ⟨_, rfl⟩ | ⟨s, _, hmem2⟩
    · rfl
    · rw [hcemp] at hmem2
      simp at hmem2
  | case7 nk nv cs b tail c hl hmm hnlen r hr2 hch hval ih =>
    intro hg k w
    have hr2' : (deleteAux c ((b :: tail).drop c.key.length)).2 = true := hr2
    have hch' : (deleteAux c ((b :: tail).drop c.key.length)).1.children = [] := hch
    have hval' : (deleteAux c ((b :: tail).drop c.key.length)).1.val = none := hval
    rw [deleteAux_found nk nv b tail hl]
    dsimp only
    rw [if_neg hmm, if_neg hnlen, if_pos hr2', hval', hch']
    have hm := lookupChild_mem hl
    have hgc := hg.child hm
    have hkeq : (b :: tail) = c.key ++ (b :: tail).drop c.key.length :=
      key_decomp_of_conds hmm
    have hcval : c.val = none := by
      rw [← deleteAux_val c ((b :: tail).drop c.key.length)]
      exact hval'
    have hIH := ih hgc
    simp only [Node.children_mk]
    conv_rhs => rw [hkeq]
    refine delete_outer_remove hg hl ?_ (fun k w hmem => ?_) k w
    · rw [head?_append_left (head?_key_ne_nil (hg.child_head hm))]
      exact hg.child_head hm
    · rcases mem_entriesAux_node.mp hmem with ⟨hv, rfl⟩ | ⟨s, rfl, hmem2⟩
      · rw [hcval] at hv
        exact Option.noConfusion hv
      · -- after the recursive delete the child kept no entries, so every old
        -- deep entry must be the deleted remainder
        have h2 := (hIH s w).mp
        have h3 : ¬ ((s, w) ∈ entriesList c.children [] ∧
            s ≠ (b :: tail).drop c.key.length) := by
          intro hc
          have := (hIH s w).mpr hc
          rw [hch'] at this
          simp at this
        by_cases hs : s = (b :: tail).drop c.key.length
        · rw [hs]
        · exact absurd ⟨hmem2, hs⟩ h3
  | case8 nk nv cs b tail c hl fst g hmm hnlen r hr2 hch hval ih =>
    intro hg k w
    have hr2' : (deleteAux c ((b :: tail).drop c.key.length)).2 = true := hr2
    have hch' : (deleteAux c ((b :: tail).drop c.key.length)).1.children = [(fst, g)] := hch
    have hval' : (deleteAux c ((b :: tail).drop c.key.length)).1.val = none := hval
    rw [deleteAux_found nk nv b tail hl]
    dsimp only
    rw [if_neg hmm, if_neg hnlen, if_pos hr2', hval', hch']
    have hm := lookupChild_mem hl
    have hgc := hg.child hm
    have hkeq : (b :: tail) = c.key ++ (b :: tail).drop c.key.length :=
      key_decomp_of_conds hmm
    have hcval : c.val = none := by
      rw [← deleteAux_val c ((b :: tail).drop c.key.length)]
      exact hval'
    have hIH := ih hgc
    have hg1 : ∀ s w, ((s, w) ∈ entriesAux g [] ↔
        ((s, w) ∈ entriesList c.children [] ∧ s ≠ (b :: tail).drop c.key.length)) := by
      intro s w
      rw [← hIH s w, hch']
      simp
    have hrk : (deleteAux c ((b :: tail).drop c.key.length)).1.key = c.key :=
      deleteAux_key c _
    simp only [Node.children_mk]
    conv_rhs => rw [hkeq]
    rw [hrk]
    refine delete_outer_set hg hl ?_ (entriesAux_merge_node hcval hg1) k w
    rw [head?_append_left (head?_key_ne_nil (hg.child_head hm))]
    exact hg.child_head hm
  | case9 nk nv cs b tail c hl hmm hnlen r hr2 hno1 hno2 ih =>
    intro hg k w
    have hr2' : (deleteAux c ((b :: tail).drop c.key.length)).2 = true := hr2
    rw [deleteAux_found nk nv b tail hl]
    dsimp only
    rw [if_neg hmm, if_neg hnlen, if_pos hr2']
    have hm := lookupChild_mem hl
    have hgc := hg.child hm
    have hkeq : (b :: tail) = c.key ++ (b :: tail).drop c.key.length :=
      key_decomp_of_conds hmm
    have hremne : (b :: tail).drop c.key.length ≠ [] := by
      push_neg at hmm
      refine drop_ne_nil_of_lt ?_
      have h1 := hmm.1
      have h2 : ¬ (b :: tail).length = c.key.length := hnlen
      omega
    have hIH := ih hgc
    split
    · rename_i x1 x2 heq1 heq2
      exact ((hno1 : r.1.val = none → r.1.children = [] → False) heq1 heq2).elim
    · rename_i x1 x2 fst2 g2 heq1 heq2
      exact ((hno2 : ∀ f2 g3, r.1.val = none → r.1.children = [(f2, g3)] → False)
        fst2 g2 heq1 heq2).elim
    · simp only [Node.children_mk]
      conv_rhs => rw [hkeq]
      exact delete_outer_set hg hl
        (by rw [head?_append_left (head?_key_ne_nil (hg.child_head hm))]
            exact hg.child_head hm)
        (entriesAux_shrink_node hremne (deleteAux_key c _) (deleteAux_val c _)
          (fun s w2 => hIH s w2)) k w
  | case10 nk nv cs b tail c hl hmm hnlen r hnr2 ih =>
    intro hg k w
    have hnr2' : ¬ (deleteAux c ((b :: tail).drop c.key.length)).2 = true := hnr2
    rw [deleteAux_found nk nv b tail hl]
    dsimp only
    rw [if_neg hmm, if_neg hnlen, if_neg hnr2']
    have hm := lookupChild_mem hl
    have hgc := hg.child hm
    have hr1 : (deleteAux c ((b :: tail).drop c.key.length)).1 = c :=
      deleteAux_false_eq c _ (Bool.not_eq_true _ ▸ hnr2')
    have hkeq : (b :: tail) = c.key ++ (b :: tail).drop c.key.length :=
      key_decomp_of_conds hmm
    have hIH := ih hgc
    simp only [Node.children_mk]
    rw [hr1, setChild_lookup_self hl]
    refine delete_outer_id (fun k w hmem => ?_) k w
    rintro rfl
    have hinc := mem_entries_at_child hg hl hmem
      (by rw [hkeq, head?_append_left (head?_key_ne_nil (hg.child_head hm))]
          exact hg.child_head hm)
    rcases (mem_entriesAux_good hgc).mp hinc with ⟨hv, hk⟩ | ⟨s, hs, hk, hmem2⟩
    · rw [hkeq] at hk
      have hremne : (b :: tail).drop c.key.length ≠ [] := by
        push_neg at hmm
        refine drop_ne_nil_of_lt ?_
        have h1 := hmm.1
        have h2 : ¬ (b :: tail).length = c.key.length := hnlen
        omega
      have hlen2 := congrArg List.length hk
      rw [List.length_append] at hlen2
      exact hremne (List.eq_nil_of_length_eq_zero (by omega))
    · -- the entry would be at the deleted remainder, but then the recursive
      -- delete would have succeeded
      have hseq : s = (b :: tail).drop c.key.length := by
        rw [hkeq] at hk
        exact (List.append_cancel_left hk).symm
      have h5 : (s, w) ∈ entriesList
          (deleteAux c ((b :: tail).drop c.key.length)).1.children [] := by
        rw [hr1]
        exact hmem2
      obtain ⟨_, hne⟩ := (hIH s w).mp h5
      exact hne hseq

/-! ### `Walk` with a collecting visitor lists exactly the entries -/

theorem walkAux_collect (n : Node V) : ∀ (pre : List Nat) (s : List (List Nat × V)),
    walkAux (fun s k v => (s ++ [(k, v)], false)) n pre s = (s ++ entriesAux n pre, false) := by
  induction n using Node.recStrong with
  | _ nk nv cs IH =>
    have hlist : ∀ (pre : List Nat) (s : List (List Nat × V)),
        walkAux.walkList (fun s k v => (s ++ [(k, v)], false)) cs pre s
          = (s ++ entriesList cs pre, false) := by
      intro pre
      induction cs with
      | nil =>
        intro s
        simp [walkAux.walkList]
      | cons hd tl ihtl =>
        intro s
        obtain ⟨b, c⟩ := hd
        rw [walkAux.walkList]
        rw [IH b c (List.mem_cons_self _ _) pre s]
        simp only [if_neg (by simp : ¬ false = true)]
        rw [ihtl (fun b2 c2 hm => IH b2 c2 (List.mem_cons_of_mem _ hm))]
        simp [List.append_assoc]
    intro pre s
    rw [walkAux.eq_def]
    obtain hnv | ⟨v, hnv⟩ : nv = none ∨ ∃ v, nv = some v := by
      cases nv
      · exact Or.inl rfl
      · exact Or.inr ⟨_, rfl⟩
    · subst hnv
      simp only []
      rw [hlist]
      rw [entriesAux_mk]
      simp
    · subst hnv
      simp only []
      rw [hlist]
      rw [entriesAux_mk]
      simp

theorem WalkCollect_eq_entries (t : Tree V) : t.WalkCollect = entries t := by
  unfold Tree.WalkCollect Tree.Walk entries
  rw [walkAux_collect]
  simp

/-! ### Tree-level invariant preservation and entry specs -/

theorem TreeGood_new : TreeGood (Tree.new : Tree V) := by
  refine ⟨?_, rfl, rfl⟩
  rw [Tree.new]
  rw [good_mk_iff]
  refine ⟨by simp, ?_, ?_⟩ <;> intro b c hm <;> simp at hm

theorem entries_new : entries (Tree.new : Tree V) = [] := by
  rw [Tree.new, entries, entriesAux_mk]
  simp

theorem TreeGood_Insert {t : Tree V} (hg : TreeGood t) (key : List Nat) (v : V) :
    TreeGood (t.Insert key v) := by
  obtain ⟨hgood, hkey, hval⟩ := hg
  rw [Tree.Insert]
  by_cases hk : key = []
  · rw [if_pos hk]
    exact ⟨hgood, hkey, hval⟩
  · rw [if_neg hk]
    refine ⟨insertAux_good t.root key v hk hgood, ?_, ?_⟩
    · rw [insertAux_key]
      exact hkey
    · rw [insertAux_val]
      exact hval

theorem TreeGood_Delete {t : Tree V} (hg : TreeGood t) (key : List Nat) :
    TreeGood (t.Delete key).1 := by
  obtain ⟨hgood, hkey, hval⟩ := hg
  rw [Tree.Delete]
  refine ⟨deleteAux_good t.root key hgood, ?_, ?_⟩
  · rw [deleteAux_key]
    exact hkey
  · rw [deleteAux_val]
    exact hval

theorem entries_Insert {t : Tree V} (hg : TreeGood t) {key : List Nat} (hkey : key ≠ [])
    (v : V) (k : List Nat) (w : V) :
    ((k, w) ∈ entries (t.Insert key v) ↔
      (k = key ∧ w = v) ∨ ((k, w) ∈ entries t ∧ k ≠ key)) := by
  rw [mem_entries_iff (TreeGood_Insert hg key v), mem_entries_iff hg]
  rw [Tree.Insert, if_neg hkey]
  exact insert_entries t.root key v hkey hg.1 k w

theorem entries_Delete {t : Tree V} (hg : TreeGood t) (key : List Nat)
    (k : List Nat) (w : V) :
    ((k, w) ∈ entries (t.Delete key).1 ↔ ((k, w) ∈ entries t ∧ k ≠ key)) := by
  rw [mem_entries_iff (TreeGood_Delete hg key), mem_entries_iff hg]
  rw [Tree.Delete]
  exact delete_entries t.root key hg.1 k w

/-! ### Operation sequences against the finite-map model -/

/-- A single mutation of the tree: `Insert key v` or the tree component of
`Delete key`. -/
inductive TrieOp (V : Type) : Type where
  | insert (key : List Nat) (v : V) : TrieOp V
  | delete (key : List Nat) : TrieOp V

def applyOp (t : Tree V) : TrieOp V → Tree V
  | .insert k v => t.Insert k v
  | .delete k => (t.Delete k).1

def runOps (ops : List (TrieOp V)) : Tree V := ops.foldl applyOp Tree.new

/-- The finite-map model: `Insert` binds a nonempty key (the empty key is
rejected by the code), `Delete` unbinds the key. -/
def modelOp (m : List Nat → Option V) : TrieOp V → (List Nat → Option V)
  | .insert key v => if key = [] then m else fun k => if k = key then some v else m k
  | .delete key => fun k => if k = key then none else m k

def model (ops : List (TrieOp V)) : List Nat → Option V :=
  ops.foldl modelOp (fun _ => none)

theorem runOps_spec (ops : List (TrieOp V)) : ∀ (t : Tree V) (m : List Nat → Option V),
    TreeGood t → (∀ k w, ((k, w) ∈ entries t ↔ m k = some w)) →
    TreeGood (ops.foldl applyOp t) ∧
      ∀ k w, ((k, w) ∈ entries (ops.foldl applyOp t) ↔ (ops.foldl modelOp m) k = some w) := by
  induction ops with
  | nil => exact fun t m hg habs => ⟨hg, habs⟩
  | cons op rest ih =>
    intro t m hg habs
    simp only [List.foldl_cons]
    cases op with
    | insert key v =>
      by_cases hk : key = []
      · subst hk
        refine ih _ _ ?_ ?_
        · rw [applyOp, Tree.Insert, if_pos rfl]
          exact hg
        · rw [applyOp, Tree.Insert, if_pos rfl, modelOp, if_pos rfl]
          exact habs
      · refine ih _ _ (TreeGood_Insert hg key v) ?_
        intro k w
        rw [applyOp] at *
        rw [entries_Insert hg hk v k w, modelOp, if_neg hk]
        by_cases hkk : k = key
        · subst hkk
          simp [habs, eq_comm]
        · simp only [if_neg hkk]
          rw [habs k w]
          constructor
          · rintro (⟨rfl, _⟩ | ⟨h1, _⟩)
            · exact absurd rfl hkk
            · exact h1
          · intro h
            exact Or.inr ⟨h, hkk⟩
    | delete key =>
      refine ih _ _ (TreeGood_Delete hg key) ?_
      intro k w
      rw [applyOp] at *
      rw [entries_Delete hg key k w, modelOp]
      by_cases hkk : k = key
      · subst hkk
        simp
      · simp only [if_neg hkk]
        rw [habs k w]
        constructor
        · rintro ⟨h1, _⟩
          exact h1
        · intro h
          exact ⟨h, hkk⟩

theorem entries_runOps (ops : List (TrieOp V)) :
    TreeGood (runOps ops) ∧
      ∀ k w, ((k, w) ∈ entries (runOps ops) ↔ model ops k = some w) := by
  refine runOps_spec ops Tree.new (fun _ => none) TreeGood_new ?_
  intro k w
  rw [entries_new]
  simp

/-- C1: for every sequence of `Insert`/`Delete` operations on the radix tree,
`Get` of any key returns the value of its most recent `Insert` unless the key
was deleted afterwards (then, or if never inserted, it returns not-found),
and `Walk` (run with a collecting visitor) visits exactly the set of
currently-present keys with their values. -/
theorem C1_trie_ops_correct {V : Type} (ops : List (TrieOp V)) (k : List Nat) :
    (runOps ops).Get k = model ops k ∧
      (∀ v, ((k, v) ∈ (runOps ops).WalkCollect ↔ model ops k = some v)) := by
  obtain ⟨hg, habs⟩ := entries_runOps ops
  constructor
  · match hget : (runOps ops).Get k with
    | some w =>
      exact ((habs k w).mp ((Get_eq_entries hg k w).mp hget)).symm
    | none =>
      match hmk : model ops k with
      | none => rfl
      | some w =>
        have h2 := (Get_eq_entries hg k w).mpr ((habs k w).mpr hmk)
        rw [hget] at h2
        cases h2
  · intro v
    rw [WalkCollect_eq_entries]
    exact habs k v

/-! ### Path-compression defect detection (claim C2)

A node is structurally redundant when it is valueless with exactly one child.
`badPaths` lists the full paths of such nodes in a subtree; `treeBadPaths`
lists those strictly below the root. -/

mutual
def badPaths : Node V → List Nat → List (List Nat)
  | .mk nk nv cs, pre =>
    (match nv, cs with
      | none, [_] => [pre ++ nk]
      | _, _ => []) ++ badPathsList cs (pre ++ nk)
def badPathsList : List (Nat × Node V) → List Nat → List (List Nat)
  | [], _ => []
  | (_, c) :: rest, pre => badPaths c pre ++ badPathsList rest pre
end

def treeBadPaths (t : Tree V) : List (List Nat) :=
  badPathsList t.root.children t.root.key

@[simp] theorem badPathsList_nil (pre : List Nat) :
    badPathsList ([] : List (Nat × Node V)) pre = [] := by
  simp [badPathsList]

@[simp] theorem badPathsList_cons (b : Nat) (c : Node V) (rest : List (Nat × Node V))
    (pre : List Nat) :
    badPathsList ((b, c) :: rest) pre = badPaths c pre ++ badPathsList rest pre := by
  simp [badPathsList]

theorem mem_badPathsList {cs : List (Nat × Node V)} {pre p : List Nat} :
    p ∈ badPathsList cs pre ↔ ∃ b c, (b, c) ∈ cs ∧ p ∈ badPaths c pre := by
  induction cs with
  | nil => simp
  | cons hd tl ih =>
    obtain ⟨b', c'⟩ := hd
    simp [ih]
    constructor
    · rintro (h | ⟨b, c, hm, h⟩)
      · exact ⟨b', c', Or.inl ⟨rfl, rfl⟩, h⟩
      · exact ⟨b, c, Or.inr hm, h⟩
    · rintro ⟨b, c, (⟨rfl, rfl⟩ | hm), h⟩
      · exact Or.inl h
      · exact Or.inr ⟨b, c, hm, h⟩

theorem badPaths_mk (nk : List Nat) (nv : Option V) (cs : List (Nat × Node V))
    (pre : List Nat) :
    badPaths (.mk nk nv cs) pre =
      (match nv, cs with
        | none, [_] => [pre ++ nk]
        | _, _ => []) ++ badPathsList cs (pre ++ nk) := by
  cases nv <;> rcases cs with _ | ⟨x, _ | ⟨y, rest⟩⟩ <;> rfl

theorem mem_badPathsList_setChild {b : Nat} {C : Node V} {cs : List (Nat × Node V)}
    {pre p : List Nat} (nd : (cs.map Prod.fst).Nodup) :
    p ∈ badPathsList (setChild b C cs) pre ↔
      p ∈ badPaths C pre ∨ ∃ b2 d, (b2, d) ∈ cs ∧ b2 ≠ b ∧ p ∈ badPaths d pre := by
  rw [mem_badPathsList]
  constructor
  · rintro ⟨b2, d, hm, hd⟩
    rcases (mem_setChild nd).mp hm with ⟨rfl, rfl⟩ | ⟨hne, hm2⟩
    · exact Or.inl hd
    · exact Or.inr ⟨b2, d, hm2, hne, hd⟩
  · rintro (hd | ⟨b2, d, hm, hne, hd⟩)
    · exact ⟨b, C, (mem_setChild nd).mpr (Or.inl ⟨rfl, rfl⟩), hd⟩
    · exact ⟨b2, d, (mem_setChild nd).mpr (Or.inr ⟨hne, hm⟩), hd⟩

theorem mem_badPathsList_removeChild {b : Nat} {cs : List (Nat × Node V)}
    {pre p : List Nat} (nd : (cs.map Prod.fst).Nodup) :
    p ∈ badPathsList (removeChild b cs) pre ↔
      ∃ b2 d, (b2, d) ∈ cs ∧ b2 ≠ b ∧ p ∈ badPaths d pre := by
  rw [mem_badPathsList]
  constructor
  · rintro ⟨b2, d, hm, hd⟩
    obtain ⟨hne, hm2⟩ := (mem_removeChild nd).mp hm
    exact ⟨b2, d, hm2, hne, hd⟩
  · rintro ⟨b2, d, hm, hne, hd⟩
    exact ⟨b2, d, (mem_removeChild nd).mpr ⟨hne, hm⟩, hd⟩

theorem mem_badPathsList_decomp {nk : List Nat} {nv : Option V}
    {cs : List (Nat × Node V)} {b : Nat} {c : Node V}
    (hg : Good (.mk nk nv cs)) (hl : lookupChild b cs = some c)
    {pre p : List Nat} :
    p ∈ badPathsList cs pre ↔
      p ∈ badPaths c pre ∨ ∃ b2 d, (b2, d) ∈ cs ∧ b2 ≠ b ∧ p ∈ badPaths d pre := by
  have nd : (cs.map Prod.fst).Nodup := hg.nodup
  rw [mem_badPathsList]
  constructor
  · rintro ⟨b2, d, hm, hd⟩
    by_cases hb : b2 = b
    · subst hb
      have hdc : d = c := by
        have h1 := lookupChild_of_mem nd hm
        rw [hl] at h1
        exact (Option.some.inj h1).symm
      subst hdc
      exact Or.inl hd
    · exact Or.inr ⟨b2, d, hm, hb, hd⟩
  · rintro (hd | ⟨b2, d, hm, hb, hd⟩)
    · exact ⟨b, c, lookupChild_mem hl, hd⟩
    · exact ⟨b2, d, hm, hd⟩

theorem mem_badPaths_node {c : Node V} {q p : List Nat} :
    p ∈ badPaths c q ↔
      (c.val = none ∧ (∃ x, c.children = [x]) ∧ p = q ++ c.key) ∨
        p ∈ badPathsList c.children (q ++ c.key) := by
  obtain ⟨nk, nv, cs⟩ := c
  rw [badPaths_mk]
  cases nv <;> rcases cs with _ | ⟨x, _ | ⟨y, rest⟩⟩ <;> simp

/-- Amended C2: after `delete(key)` the only path at which a valueless
single-child node can newly appear is `key` itself — the path of the node
that held the deleted key.  All other single-child valueless nodes produced
along the recursion path are merged away. -/
theorem delete_badPathsList : ∀ (n : Node V) (key : List Nat), Good n →
    ∀ q p, p ∈ badPathsList (deleteAux n key).1.children q →
    p ∈ badPathsList n.children q ∨ p = q ++ key := by
  intro n key
  induction n, key using deleteAux.induct with
  | case1 nk nv cs =>
    intro hg q p hp
    rw [deleteAux_nil] at hp
    exact Or.inl hp
  | case2 nk nv cs b tail hl =>
    intro hg q p hp
    rw [deleteAux_none nk nv b tail hl] at hp
    exact Or.inl hp
  | case3 nk nv cs b tail c hl hmm =>
    intro hg q p hp
    rw [deleteAux_found nk nv b tail hl] at hp
    dsimp only at hp
    rw [if_pos hmm] at hp
    exact Or.inl hp
  | case4 nk nv cs b tail c hl hne hvn hmm hlen =>
    intro hg q p hp
    rw [deleteAux_found nk nv b tail hl] at hp
    dsimp only at hp
    rw [if_neg hmm, if_pos hlen, if_pos hne, if_pos hvn] at hp
    exact Or.inl hp
  | case5 nk nv cs b tail c hl hne hnvn hmm hlen =>
    intro hg q p hp
    rw [deleteAux_found nk nv b tail hl] at hp
    dsimp only at hp
    rw [if_neg hmm, if_pos hlen, if_pos hne, if_neg hnvn] at hp
    have nd : (cs.map Prod.fst).Nodup := hg.nodup
    have hkeq : (b :: tail) = c.key := key_eq_of_whole hmm hlen
    simp only [Node.children_mk] at hp
    rcases (mem_badPathsList_setChild nd).mp hp with hbad | hothers
    · rcases mem_badPaths_node.mp hbad with ⟨_, _, hpe⟩ | hdeep
      · refine Or.inr ?_
        simp only [Node.key_mk] at hpe
        rw [hpe, hkeq]
      · refine Or.inl ((mem_badPathsList_decomp hg hl).mpr (Or.inl ?_))
        simp only [Node.children_mk, Node.key_mk] at hdeep
        exact mem_badPaths_node.mpr (Or.inr hdeep)
    · exact Or.inl ((mem_badPathsList_decomp hg hl).mpr (Or.inr hothers))
  | case6 nk nv cs b tail c hl hnne hmm hlen =>
    intro hg q p hp
    rw [deleteAux_found nk nv b tail hl] at hp
    dsimp only at hp
    rw [if_neg hmm, if_pos hlen, if_neg hnne] at hp
    have nd : (cs.map Prod.fst).Nodup := hg.nodup
    simp only [Node.children_mk] at hp
    obtain ⟨b2, d, hm2, _, hd⟩ := (mem_badPathsList_removeChild nd).mp hp
    exact Or.inl (mem_badPathsList.mpr ⟨b2, d, hm2, hd⟩)
  | case7 nk nv cs b tail c hl hmm hnlen r hr2 hch hval ih =>
    intro hg q p hp
    have hr2' : (deleteAux c ((b :: tail).drop c.key.length)).2 = true := hr2
    have hch' : (deleteAux c ((b :: tail).drop c.key.length)).1.children = [] := hch
    have hval' : (deleteAux c ((b :: tail).drop c.key.length)).1.val = none := hval
    rw [deleteAux_found nk nv b tail hl] at hp
    dsimp only at hp
    rw [if_neg hmm, if_neg hnlen, if_pos hr2', hval', hch'] at hp
    have nd : (cs.map Prod.fst).Nodup := hg.nodup
    simp only [Node.children_mk] at hp
    obtain ⟨b2, d, hm2, _, hd⟩ := (mem_badPathsList_removeChild nd).mp hp
    exact Or.inl (mem_badPathsList.mpr ⟨b2, d, hm2, hd⟩)
  | case8 nk nv cs b tail c hl fst g hmm hnlen r hr2 hch hval ih =>
    intro hg q p hp
    have hr2' : (deleteAux c ((b :: tail).drop c.key.length)).2 = true := hr2
    have hch' : (deleteAux c ((b :: tail).drop c.key.length)).1.children = [(fst, g)] := hch
    have hval' : (deleteAux c ((b :: tail).drop c.key.length)).1.val = none := hval
    rw [deleteAux_found nk nv b tail hl] at hp
    dsimp only at hp
    rw [if_neg hmm, if_neg hnlen, if_pos hr2', hval', hch'] at hp
    have nd : (cs.map Prod.fst).Nodup := hg.nodup
    have hgc := hg.child (lookupChild_mem hl)
    have hkeq : (b :: tail) = c.key ++ (b :: tail).drop c.key.length :=
      key_decomp_of_conds hmm
    have hrk : (deleteAux c ((b :: tail).drop c.key.length)).1.key = c.key :=
      deleteAux_key c _
    simp only [Node.children_mk] at hp
    rw [hrk] at hp
    rcases (mem_badPathsList_setChild nd).mp hp with hbad | hothers
    · -- the merged node's defects are the grandchild's defects
      have hg2 : p ∈ badPaths g (q ++ c.key) := by
        rcases mem_badPaths_node.mp hbad with ⟨hv2, hx, hpe⟩ | hdeep
        · refine mem_badPaths_node.mpr (Or.inl ⟨hv2, hx, ?_⟩)
          simp only [Node.key_mk] at hpe
          rw [hpe]
          exact (List.append_assoc q c.key g.key).symm
        · refine mem_badPaths_node.mpr (Or.inr ?_)
          simp only [Node.children_mk, Node.key_mk] at hdeep ⊢
          rw [← List.append_assoc] at hdeep
          exact hdeep
      have hg3 : p ∈ badPathsList
          (deleteAux c ((b :: tail).drop c.key.length)).1.children (q ++ c.key) := by
        rw [hch']
        simp only [badPathsList_cons, badPathsList_nil, List.append_nil]
        exact hg2
      rcases ih hgc (q ++ c.key) p hg3 with hold | rfl
      · refine Or.inl ((mem_badPathsList_decomp hg hl).mpr (Or.inl ?_))
        exact mem_badPaths_node.mpr (Or.inr hold)
      · refine Or.inr ?_
        rw [hkeq, List.drop_left]
        exact List.append_assoc q c.key _
    · exact Or.inl ((mem_badPathsList_decomp hg hl).mpr (Or.inr hothers))
  | case9 nk nv cs b tail c hl hmm hnlen r hr2 hno1 hno2 ih =>
    intro hg q p hp
    have hr2' : (deleteAux c ((b :: tail).drop c.key.length)).2 = true := hr2
    rw [deleteAux_found nk nv b tail hl] at hp
    dsimp only at hp
    rw [if_neg hmm, if_neg hnlen, if_pos hr2'] at hp
    have nd : (cs.map Prod.fst).Nodup := hg.nodup
    have hgc := hg.child (lookupChild_mem hl)
    have hkeq : (b :: tail) = c.key ++ (b :: tail).drop c.key.length :=
      key_decomp_of_conds hmm
    have hrk : (deleteAux c ((b :: tail).drop c.key.length)).1.key = c.key :=
      deleteAux_key c _
    -- whichever arm of the match was taken, the replaced child has the same
    -- key and its defects come from the recursive call
    split at hp
    · rename_i x1 x2 heq1 heq2
      exact ((hno1 : r.1.val = none → r.1.children = [] → False) heq1 heq2).elim
    · rename_i x1 x2 fst2 g2 heq1 heq2
      exact ((hno2 : ∀ f2 g3, r.1.val = none → r.1.children = [(f2, g3)] → False)
        fst2 g2 heq1 heq2).elim
    · rename_i x1 x2 hno1b hno2b
      simp only [Node.children_mk] at hp
      rcases (mem_badPathsList_setChild nd).mp hp with hbad | hothers
      · rcases mem_badPaths_node.mp hbad with ⟨hv2, ⟨x, hx⟩, rfl⟩ | hdeep
        · exact ((hno2b : ∀ f2 g3, r.1.val = none → r.1.children = [(f2, g3)] → False)
            x.1 x.2 hv2 (by rw [hx])).elim
        · rw [hrk] at hdeep
          rcases ih hgc (q ++ c.key) p hdeep with hold | rfl
          · refine Or.inl ((mem_badPathsList_decomp hg hl).mpr (Or.inl ?_))
            exact mem_badPaths_node.mpr (Or.inr hold)
          · refine Or.inr ?_
            rw [hkeq, List.drop_left]
            exact List.append_assoc q c.key _
      · exact Or.inl ((mem_badPathsList_decomp hg hl).mpr (Or.inr hothers))
  | case10 nk nv cs b tail c hl hmm hnlen r hnr2 ih =>
    intro hg q p hp
    have hnr2' : ¬ (deleteAux c ((b :: tail).drop c.key.length)).2 = true := hnr2
    rw [deleteAux_found nk nv b tail hl] at hp
    dsimp only at hp
    rw [if_neg hmm, if_neg hnlen, if_neg hnr2'] at hp
    have hr1 : (deleteAux c ((b :: tail).drop c.key.length)).1 = c :=
      deleteAux_false_eq c _ (Bool.not_eq_true _ ▸ hnr2')
    simp only [Node.children_mk] at hp
    rw [hr1, setChild_lookup_self hl] at hp
    exact Or.inl hp

/-- C2 (counterexample): after inserting keys `[97]` and `[97, 98]` and
deleting `[97]`, the node at path `[97]` is left valueless with exactly one
child — the tree does contain a single-child valueless node, contrary to the
claim. -/
theorem C2_counterexample :
    treeBadPaths (((((Tree.new : Tree Nat).Insert [97] 1).Insert [97, 98] 2).Delete
      [97]).1) = [[97]] := by
  simp [Tree.new, Tree.Insert, Tree.Delete, insertAux, deleteAux, setChild, removeChild,
    lookupChild, commonPrefixLen, treeBadPaths, badPaths, badPathsList]

/-- C2 (amended): after `Delete(key)` on a well-formed tree, the only path at
which a single-child valueless node may remain beyond those already present
is `key` itself — the node that held the deleted key is merely marked
valueless when it retains children, while every single-child valueless node
arising at a proper ancestor along the recursion path is merged away. -/
theorem C2_delete_single_child_localized {V : Type} {t : Tree V} (hg : TreeGood t)
    (key p : List Nat) (hp : p ∈ treeBadPaths (t.Delete key).1) :
    p ∈ treeBadPaths t ∨ p = key := by
  obtain ⟨hgood, hkey, hval⟩ := hg
  unfold treeBadPaths at hp ⊢
  rw [Tree.Delete] at hp
  simp only at hp
  rw [deleteAux_key] at hp
  rcases delete_badPathsList t.root key hgood t.root.key p hp with h | h
  · exact Or.inl h
  · right
    rw [h, hkey, List.nil_append]

theorem C2_delete_single_child_localized_witness :
    ([97] : List Nat) ∈ treeBadPaths (((Tree.new : Tree Nat).Insert [97] 1).Insert
      [97, 98] 2) ∨ ([97] : List Nat) = [97] :=
  C2_delete_single_child_localized
    (TreeGood_Insert (TreeGood_Insert TreeGood_new [97] 1) [97, 98] 2) [97] [97]
    (by simp [Tree.new, Tree.Insert, Tree.Delete, insertAux, deleteAux, setChild,
      removeChild, lookupChild, commonPrefixLen, treeBadPaths, badPaths, badPathsList])

end Draupnir
namespace Draupnir

/-! ## Router (router.go lines 165-178, 252-284, 393-415)

Go strings at the router level are embedded as `List Char` (the paths and
patterns in the claims are ASCII, where Go bytes and runes coincide); the
static-route trie stores keys as byte lists via `Char.toNat`.  The request
handler is an opaque type parameter. -/

/-- `splitPath` (router.go lines 413-415): `strings.FieldsFunc` splitting on
the slash, keeping only non-empty segments. -/
def splitPath (path : List Char) : List (List Char) :=
  splitPathAux path []
where
  splitPathAux : List Char → List Char → List (List Char)
    | [], acc => if acc.isEmpty then [] else [acc.reverse]
    | c :: rest, acc =>
      if c = '/' then
        if acc.isEmpty then splitPathAux rest [] else acc.reverse :: splitPathAux rest []
      else splitPathAux rest (c :: acc)

/-- Go map write `params[key] = value` on a `map[string]string`. -/
def setParam (k v : List Char) : List (List Char × List Char) → List (List Char × List Char)
  | [] => [(k, v)]
  | (k2, v2) :: rest => if k2 = k then (k, v) :: rest else (k2, v2) :: setParam k v rest

/-- The segment loop of `matchPattern` (router.go lines 400-408). -/
def matchSegs : List (List Char) → List (List Char) →
    List (List Char × List Char) → Option (List (List Char × List Char))
  | [], [], params => some params
  | p :: ps, q :: qs, params =>
    if 0 < p.length ∧ p.headD ' ' = ':' then
      matchSegs ps qs (setParam (p.drop 1) q params)
    else if p = q then matchSegs ps qs params
    else none
  | _, _, _ => none

/-- `matchPattern` (router.go lines 394-410): compares a route pattern with a
request path, returning the captured parameters on success. -/
def matchPattern (pattern path : List Char) :
    Option (List (List Char × List Char)) :=
  let patternParts := splitPath pattern
  let pathParts := splitPath path
  if patternParts.length ≠ pathParts.length then none
  else matchSegs patternParts pathParts []

/-- `route` (unnamed struct file): method, pattern and opaque handler. -/
structure route (H : Type) : Type where
  method : List Char
  pattern : List Char
  handler : H

/-- The routing tables of `Router`: the static-route radix tree and the
ordered dynamic-route list. -/
structure Router (H : Type) : Type where
  staticRoutes : Tree (route H)
  dynamicRoutes : List (route H)

def Router.new {H : Type} : Router H := ⟨Tree.new, []⟩

def strBytes (s : List Char) : List Nat := s.map Char.toNat

/-- `Router.Handle` (router.go lines 166-178): patterns containing `:` or `*`
go to the dynamic list, the rest into the static trie. -/
def Router.Handle {H : Type} (r : Router H) (method pattern : List Char) (handler : H) :
    Router H :=
  let rt : route H := ⟨method, pattern, handler⟩
  if ¬ (pattern.contains ':' ∨ pattern.contains '*') then
    ⟨r.staticRoutes.Insert (strBytes pattern) rt, r.dynamicRoutes⟩
  else
    ⟨r.staticRoutes, r.dynamicRoutes ++ [rt]⟩

/-- The observable resolution result of `Router.ServeHTTP`: the handler runs
(with the dynamic-route parameters placed in the request context, `none` for
a static route), or a 405 with the `Allow` header, or a 404. -/
inductive Outcome (H : Type) : Type where
  | executed (handler : H) (params : Option (List (List Char × List Char))) : Outcome H
  | methodNotAllowed (allow : List Char) : Outcome H
  | notFound : Outcome H
deriving DecidableEq

def optionsMethod : List Char := ['O', 'P', 'T', 'I', 'O', 'N', 'S']

/-- The dynamic-route loop of `Router.ServeHTTP` (router.go lines 273-280):
first pattern match whose method also matches wins; a pattern match with a
method mismatch just continues the scan. -/
def serveDynamic {H : Type} (method path : List Char) :
    List (route H) → Outcome H
  | [] => .notFound
  | rt :: rest =>
    match matchPattern rt.pattern path with
    | some params =>
      if rt.method = method ∨ method = optionsMethod then
        .executed rt.handler (some params)
      else serveDynamic method path rest
    | none => serveDynamic method path rest

/-- Route resolution of `Router.ServeHTTP` (router.go lines 256-284): exact
static match first (405 on method mismatch), then the dynamic scan, else
404. -/
def Router.ServeHTTP {H : Type} (r : Router H) (method path : List Char) : Outcome H :=
  match r.staticRoutes.Get (strBytes path) with
  | some rt =>
    if rt.method = method ∨ method = optionsMethod then .executed rt.handler none
    else .methodNotAllowed rt.method
  | none => serveDynamic method path r.dynamicRoutes

end Draupnir
namespace Draupnir

def chars (s : String) : List Char := s.data

/-- C3 counterexample: with only the dynamic route GET /users/:id registered,
POST /users/42 resolves as not-found (404), not as method-not-allowed (405):
a dynamic route whose method does not match is skipped by the scan. -/
theorem C3_counterexample :
    (Router.new.Handle (chars ("GET")) (chars ("/users/:id")) 0).ServeHTTP
      (chars ("POST")) (chars ("/users/42")) = Outcome.notFound := by
  simp [Router.new, Router.Handle, Router.ServeHTTP, Tree.new, Tree.Get, Tree.findNode,
    findNodeAux, serveDynamic, matchPattern, splitPath, splitPath.splitPathAux, matchSegs,
    setParam, chars, strBytes, optionsMethod]

/-- C3 (amended): with only the dynamic route GET /users/:id registered,
GET /users/42 resolves to the handler with captured parameter id = 42, and
POST /users/42 resolves as not-found (404): method-not-allowed is produced
only for static-route method mismatches, dynamic mismatches fall through. -/
theorem C3_dynamic_resolution :
    ((Router.new.Handle (chars ("GET")) (chars ("/users/:id")) 0).ServeHTTP
      (chars ("GET")) (chars ("/users/42"))
      = Outcome.executed 0 (some [(chars ("id"), chars ("42"))])) ∧
    ((Router.new.Handle (chars ("GET")) (chars ("/users/:id")) 0).ServeHTTP
      (chars ("POST")) (chars ("/users/42")) = Outcome.notFound) := by
  constructor <;>
  simp [Router.new, Router.Handle, Router.ServeHTTP, Tree.new, Tree.Get, Tree.findNode,
    findNodeAux, serveDynamic, matchPattern, splitPath, splitPath.splitPathAux, matchSegs,
    setParam, chars, strBytes, optionsMethod]

theorem matchSegs_literal :
    ∀ (ps qs : List (List Char)) (acc params : List (List Char × List Char)),
      matchSegs ps qs acc = some params →
      ps.length = qs.length ∧
      ∀ i, i < ps.length →
        ¬ (0 < (ps.getD i []).length ∧ (ps.getD i []).headD ' ' = ':') →
        qs.getD i [] = ps.getD i [] := by
  intro ps
  induction ps with
  | nil =>
    intro qs acc params h
    cases qs with
    | nil => exact ⟨rfl, by intro i hi; simp at hi⟩
    | cons q qs => simp [matchSegs] at h
  | cons p ps ih =>
    intro qs acc params h
    cases qs with
    | nil => simp [matchSegs] at h
    | cons q qs =>
      rw [matchSegs] at h
      by_cases hc : 0 < p.length ∧ p.headD ' ' = ':'
      · rw [if_pos hc] at h
        obtain ⟨hl, hrest⟩ := ih qs _ params h
        refine ⟨by simp [hl], ?_⟩
        intro i hi hnc
        cases i with
        | zero => exact absurd hc (by simpa using hnc)
        | succ j =>
          simpa using hrest j (by simpa using hi) (by simpa using hnc)
      · rw [if_neg hc] at h
        by_cases hpq : p = q
        · rw [if_pos hpq] at h
          obtain ⟨hl, hrest⟩ := ih qs _ params h
          refine ⟨by simp [hl], ?_⟩
          intro i hi hnc
          cases i with
          | zero => simp [hpq]
          | succ j =>
            simpa using hrest j (by simpa using hi) (by simpa using hnc)
        · rw [if_neg hpq] at h
          exact absurd h (by simp)

/-- C7 counterexample: the pattern /files/*path does not match the path
/files/abc, because a segment starting with an asterisk is not treated as
capturing and must equal the path segment byte-for-byte. -/
theorem C7_counterexample :
    matchPattern (chars ("/files/*path")) (chars ("/files/abc")) = none := by
  decide

/-- C7 (amended): whenever matchPattern succeeds, the pattern and the path
have the same number of segments, and every pattern segment that does not
start with a colon — including wildcard segments of the form *name — equals
the corresponding path segment literally; only colon segments capture. -/
theorem C7_wildcard_literal (pattern path : List Char)
    (params : List (List Char × List Char))
    (h : matchPattern pattern path = some params) :
    (splitPath pattern).length = (splitPath path).length ∧
    ∀ i, i < (splitPath pattern).length →
      ¬ (0 < ((splitPath pattern).getD i []).length ∧
          ((splitPath pattern).getD i []).headD ' ' = ':') →
      (splitPath path).getD i [] = (splitPath pattern).getD i [] := by
  simp only [matchPattern] at h
  split at h
  · exact absurd h (by simp)
  · exact matchSegs_literal _ _ _ _ h

/-- Witness for C7: the pattern /files/*path does match the literal path
/files/*path (with no captures), and the theorem instantiated there. -/
theorem C7_wildcard_literal_witness :
    (splitPath (chars ("/files/*path"))).length
      = (splitPath (chars ("/files/*path"))).length ∧
    ∀ i, i < (splitPath (chars ("/files/*path"))).length →
      ¬ (0 < ((splitPath (chars ("/files/*path"))).getD i []).length ∧
          ((splitPath (chars ("/files/*path"))).getD i []).headD ' ' = ':') →
      (splitPath (chars ("/files/*path"))).getD i []
        = (splitPath (chars ("/files/*path"))).getD i [] :=
  C7_wildcard_literal (chars ("/files/*path")) (chars ("/files/*path")) []
    (by decide)

end Draupnir
namespace Draupnir

/-! ## RateLimiter (src/example/wschat.go lines 137-146 and the refill file)

The mutex serialises `Allow` calls and refill ticks, so the limiter is
embedded as a state with one step per serialised event: an `Allow` call, or
one firing of the refill ticker inside `refillTokens`. -/

/-- `RateLimiter` state: the two integer fields guarded by the mutex. -/
structure RateLimiter : Type where
  tokens : Int
  maxTokens : Int
deriving DecidableEq

/-- `NewRateLimiter` (wschat.go lines 137-146): starts with a full bucket. -/
def NewRateLimiter (maxTokens : Int) : RateLimiter :=
  ⟨maxTokens, maxTokens⟩

/-- `RateLimiter.Allow`: take a token when any remain, else refuse. -/
def RateLimiter.Allow (rl : RateLimiter) : RateLimiter × Bool :=
  if rl.tokens > 0 then (⟨rl.tokens - 1, rl.maxTokens⟩, true)
  else (rl, false)

/-- One firing of the ticker inside `refillTokens`: the bucket refills. -/
def RateLimiter.refillTick (rl : RateLimiter) : RateLimiter :=
  ⟨rl.maxTokens, rl.maxTokens⟩

/-- A serialised event on the limiter. -/
inductive RLEvent : Type where
  | allow : RLEvent
  | refill : RLEvent
deriving DecidableEq

/-- Run a sequence of serialised events, collecting each `Allow` result. -/
def rlRun : RateLimiter → List RLEvent → RateLimiter × List Bool
  | rl, [] => (rl, [])
  | rl, RLEvent.allow :: es =>
    let p := rl.Allow
    let r := rlRun p.1 es
    (r.1, p.2 :: r.2)
  | rl, RLEvent.refill :: es => rlRun rl.refillTick es

theorem rlRun_allows (k : Nat) :
    ∀ (n : Nat) (m : Int),
      rlRun ⟨(n : Int), m⟩ (List.replicate k RLEvent.allow)
        = (⟨((n - k : Nat) : Int), m⟩,
           List.replicate (min k n) true ++ List.replicate (k - n) false) := by
  induction k with
  | zero => intro n m; simp [rlRun]
  | succ k ih =>
    intro n m
    cases n with
    | zero =>
      rw [List.replicate_succ]
      simp only [rlRun]
      have h0 := ih 0 m
      simp only [Nat.cast_zero] at h0
      simp [RateLimiter.Allow, h0, List.replicate_succ]
    | succ n =>
      rw [List.replicate_succ]
      simp only [rlRun]
      have hpos : ((n + 1 : Nat) : Int) > 0 := by exact_mod_cast Nat.succ_pos n
      have h1 : RateLimiter.Allow ⟨((n + 1 : Nat) : Int), m⟩
          = (⟨((n : Nat) : Int), m⟩, true) := by
        simp only [RateLimiter.Allow]
        rw [if_pos hpos]
        have h2 : ((n + 1 : Nat) : Int) - 1 = ((n : Nat) : Int) := by
          push_cast
          ring
        rw [h2]
      rw [h1]
      simp [ih n m, Nat.succ_sub_succ, Nat.succ_min_succ, List.replicate_succ]

theorem rlRun_append (es fs : List RLEvent) :
    ∀ rl : RateLimiter,
      rlRun rl (es ++ fs)
        = ((rlRun (rlRun rl es).1 fs).1,
           (rlRun rl es).2 ++ (rlRun (rlRun rl es).1 fs).2) := by
  induction es with
  | nil => intro rl; simp [rlRun]
  | cons e es ih =>
    intro rl
    cases e with
    | allow =>
      rw [List.cons_append]
      simp only [rlRun, List.append_eq]
      rw [ih]
      simp
    | refill =>
      rw [List.cons_append]
      simp only [rlRun, List.append_eq]
      rw [ih]

theorem rlRun_bounds (es : List RLEvent) :
    ∀ rl : RateLimiter, 0 ≤ rl.tokens → rl.tokens ≤ rl.maxTokens →
      0 ≤ (rlRun rl es).1.tokens ∧
      (rlRun rl es).1.tokens ≤ (rlRun rl es).1.maxTokens ∧
      (rlRun rl es).1.maxTokens = rl.maxTokens := by
  induction es with
  | nil => intro rl h0 h1; exact ⟨h0, h1, rfl⟩
  | cons e es ih =>
    intro rl h0 h1
    cases e with
    | allow =>
      simp only [rlRun]
      by_cases hc : rl.tokens > 0
      · rw [RateLimiter.Allow, if_pos hc]
        exact ih ⟨rl.tokens - 1, rl.maxTokens⟩ (by simp; omega) (by simp; omega)
      · rw [RateLimiter.Allow, if_neg hc]
        exact ih rl h0 h1
    | refill =>
      simp only [rlRun, RateLimiter.refillTick]
      exact ih ⟨rl.maxTokens, rl.maxTokens⟩ (by simp; omega) (by simp)

/-- C8: starting from a full bucket of maxTokens = m > 0, a burst of k Allow
calls yields min k m successes followed by k - m refusals; after one refill
tick a further burst of j Allow calls again yields min j m successes then
refusals; and over every serialised event sequence the token count stays
within the closed interval from 0 to m. -/
theorem C8_rate_limiter (m : Int) (hm : 0 < m) (k j : Nat) (es : List RLEvent) :
    ((rlRun (NewRateLimiter m)
        (List.replicate k RLEvent.allow
          ++ RLEvent.refill :: List.replicate j RLEvent.allow)).2
      = List.replicate (min k m.toNat) true ++ List.replicate (k - m.toNat) false
        ++ (List.replicate (min j m.toNat) true
            ++ List.replicate (j - m.toNat) false)) ∧
    0 ≤ (rlRun (NewRateLimiter m) es).1.tokens ∧
    (rlRun (NewRateLimiter m) es).1.tokens ≤ m := by
  have hmn : ((m.toNat : Nat) : Int) = m := Int.toNat_of_nonneg (le_of_lt hm)
  constructor
  · rw [rlRun_append]
    have h1 : rlRun (NewRateLimiter m) (List.replicate k RLEvent.allow)
        = (⟨((m.toNat - k : Nat) : Int), m⟩,
           List.replicate (min k m.toNat) true
             ++ List.replicate (k - m.toNat) false) := by
      have := rlRun_allows k m.toNat m
      rw [hmn] at this
      exact this
    rw [h1]
    simp only [rlRun, RateLimiter.refillTick]
    have h2 := rlRun_allows j m.toNat m
    rw [hmn] at h2
    rw [h2]
  · have h2 := rlRun_bounds es (NewRateLimiter m)
      (by simp [NewRateLimiter]; omega) (by simp [NewRateLimiter])
    refine ⟨h2.1, ?_⟩
    have h3 := h2.2.1
    rw [h2.2.2] at h3
    simpa [NewRateLimiter] using h3

/-- Witness for C8 at m = 2, a burst of 3, a refill, a burst of 3. -/
theorem C8_rate_limiter_witness :
    (0 : Int) < 2 ∧
    (((rlRun (NewRateLimiter 2)
        (List.replicate 3 RLEvent.allow
          ++ RLEvent.refill :: List.replicate 3 RLEvent.allow)).2
      = List.replicate (min 3 (2 : Int).toNat) true
          ++ List.replicate (3 - (2 : Int).toNat) false
        ++ (List.replicate (min 3 (2 : Int).toNat) true
            ++ List.replicate (3 - (2 : Int).toNat) false)) ∧
    0 ≤ (rlRun (NewRateLimiter 2) [RLEvent.allow, RLEvent.refill]).1.tokens ∧
    (rlRun (NewRateLimiter 2) [RLEvent.allow, RLEvent.refill]).1.tokens ≤ 2) :=
  ⟨by decide, C8_rate_limiter 2 (by decide) 3 3 [RLEvent.allow, RLEvent.refill]⟩

/-! ## WorkerPool (src/wp.go, src/example/wschat.go lines 157-168)

The task queue is a Go channel of capacity size*10; a send on a full channel
blocks the submitter until a worker drains a task, and then completes.  The
queue is embedded as a list (the completed send appends), the waitgroup as a
counter. -/

/-- `WorkerPool`: pending task queue, waitgroup counter, worker count. -/
structure WorkerPool (T : Type) : Type where
  tasks : List T
  wgCount : Nat
  size : Nat

/-- `NewWorkerPool` (wschat.go lines 157-168): empty queue, `size` workers. -/
def NewWorkerPool (T : Type) (size : Nat) : WorkerPool T :=
  ⟨[], 0, size⟩

/-- `WorkerPool.Submit` (wp.go lines 10-15): `wg.Add(1)`, blocking channel
send, and an unconditional `return nil`; the error is `none` always. -/
def WorkerPool.Submit {T : Type} (wp : WorkerPool T) (task : T) :
    WorkerPool T × Option String :=
  (⟨wp.tasks ++ [task], wp.wgCount + 1, wp.size⟩, none)

/-- The terminal observable of `Router.executeHandler`. -/
inductive HandlerOutcome : Type where
  | tooManyRequests : HandlerOutcome
  | serviceUnavailable : HandlerOutcome
  | executed : HandlerOutcome
deriving DecidableEq

/-- `Router.executeHandler` (router.go lines 287-312): rate-limit check
first (429), then dispatch through the worker pool when one is configured,
answering 503 exactly when `Submit` returns a non-nil error. -/
def executeHandler {T : Type} (rl : Option RateLimiter)
    (wp : Option (WorkerPool T)) (task : T) :
    Option RateLimiter × Option (WorkerPool T) × HandlerOutcome :=
  match rl with
  | some r =>
    let p := r.Allow
    if ¬ p.2 then (some p.1, wp, HandlerOutcome.tooManyRequests)
    else executeDispatch (some p.1) wp task
  | none => executeDispatch none wp task
where
  executeDispatch (rl2 : Option RateLimiter) (wp : Option (WorkerPool T))
      (task : T) : Option RateLimiter × Option (WorkerPool T) × HandlerOutcome :=
    match wp with
    | some w =>
      let q := w.Submit task
      match q.2 with
      | some _ => (rl2, some q.1, HandlerOutcome.serviceUnavailable)
      | none => (rl2, some q.1, HandlerOutcome.executed)
    | none => (rl2, none, HandlerOutcome.executed)

/-- C10: `Submit` returns nil for every task in every pool state — its
backpressure is the blocking channel send, never a rejection — and hence the
503 service-unavailable branch of `executeHandler`, which runs only on a
non-nil `Submit` error, is unreachable. -/
theorem C10_submit_never_fails {T : Type} (wp : WorkerPool T) (task : T)
    (rl : Option RateLimiter) (owp : Option (WorkerPool T)) :
    (wp.Submit task).2 = none ∧
    (executeHandler rl owp task).2.2 ≠ HandlerOutcome.serviceUnavailable := by
  refine ⟨rfl, ?_⟩
  cases rl with
  | none =>
    cases owp with
    | none => simp [executeHandler, executeHandler.executeDispatch]
    | some w => simp [executeHandler, executeHandler.executeDispatch, WorkerPool.Submit]
  | some r =>
    simp only [executeHandler]
    by_cases hc : (r.Allow).2
    · cases owp with
      | none => simp [hc, executeHandler.executeDispatch]
      | some w => simp [hc, executeHandler.executeDispatch, WorkerPool.Submit]
    · simp [hc]

end Draupnir
namespace Draupnir

/-! ## WebSocket frame codec (src/ws.go lines 29-140)

Byte streams are lists of naturals below 256; `io.ReadFull` becomes a
take/drop on the stream with `none` on a short read. -/

/-- `io.ReadFull` of n bytes from the stream. -/
def readBytes (n : Nat) (s : List Nat) : Option (List Nat × List Nat) :=
  if s.length < n then none else some (s.take n, s.drop n)

/-- `binary.BigEndian.Uint16` / `Uint64` over the read bytes. -/
def beVal (bs : List Nat) : Nat :=
  bs.foldl (fun a b => a * 256 + b) 0

/-- `binary.BigEndian.PutUint16`. -/
def be16 (n : Nat) : List Nat :=
  [n / 2 ^ 8 % 256, n % 256]

/-- `binary.BigEndian.PutUint64`. -/
def be64 (n : Nat) : List Nat :=
  [n / 2 ^ 56 % 256, n / 2 ^ 48 % 256, n / 2 ^ 40 % 256, n / 2 ^ 32 % 256,
   n / 2 ^ 24 % 256, n / 2 ^ 16 % 256, n / 2 ^ 8 % 256, n % 256]

/-- The unmasking loop of `readFrame` (ws.go lines 81-85):
`payload[i] ^= maskingKey[i%4]`. -/
def unmaskPayload (maskingKey payload : List Nat) : List Nat :=
  payload.mapIdx (fun i b => b ^^^ maskingKey.getD (i % 4) 0)

/-- The extended-payload-length step of `readFrame` (ws.go lines 51-63). -/
def readLen (len0 : Nat) (s : List Nat) : Option (Nat × List Nat) :=
  if len0 = 126 then
    match readBytes 2 s with
    | none => none
    | some (ext, s2) => some (beVal ext, s2)
  else if len0 = 127 then
    match readBytes 8 s with
    | none => none
    | some (ext, s2) => some (beVal ext, s2)
  else some (len0, s)

/-- `websocketConnection.readFrame` (ws.go lines 29-95): returns the opcode,
the (unmasked) payload and the rest of the stream; `none` on a short read or
on a fragment with the FIN bit clear. -/
def readFrame (s : List Nat) : Option (Nat × List Nat × List Nat) :=
  match s with
  | b0 :: b1 :: s2 =>
    match readLen (b1 &&& 0x7F) s2 with
    | none => none
    | some (payloadLen, s3) =>
      let masked : Bool := decide (b1 &&& 0x80 ≠ 0)
      match (if masked then readBytes 4 s3 else some ([], s3)) with
      | none => none
      | some (maskingKey, s4) =>
        match readBytes payloadLen s4 with
        | none => none
        | some (payload0, s5) =>
          let payload := if masked then unmaskPayload maskingKey payload0 else payload0
          if decide (b0 &&& 0x80 ≠ 0) then some (b0 &&& 0x0F, payload, s5)
          else none
  | _ => none

/-- `websocketConnection.writeFrame` (ws.go lines 98-140): FIN always set,
never masked; the `uint16`/`uint64` conversions wrap explicitly. -/
def writeFrame (opcode : Nat) (payload : List Nat) : List Nat :=
  let firstByte := 0x80 ||| (opcode &&& 0x0F)
  let length := payload.length
  if length < 126 then
    firstByte :: length :: payload
  else if length ≤ 65535 then
    firstByte :: 126 :: (be16 (length % 2 ^ 16) ++ payload)
  else
    firstByte :: 127 :: (be64 (length % 2 ^ 64) ++ payload)

theorem land127_of_lt (n : Nat) (h : n < 128) : n &&& 127 = n := by
  have h2 := Nat.and_pow_two_sub_one_eq_mod n 7
  norm_num at h2
  rw [h2]
  exact Nat.mod_eq_of_lt h

theorem land128_of_lt (n : Nat) (h : n < 128) : n &&& 128 = 0 := by
  have h2 := Nat.and_two_pow n 7
  have h3 : n.testBit 7 = false := Nat.testBit_lt_two_pow (by norm_num; omega)
  rw [h3] at h2
  norm_num at h2
  exact h2

theorem first_byte_land_high (op : Nat) (h : op < 16) :
    (0x80 ||| (op &&& 0x0F)) &&& 0x80 = 0x80 := by
  interval_cases op <;> decide

theorem first_byte_land_low (op : Nat) (h : op < 16) :
    (0x80 ||| (op &&& 0x0F)) &&& 0x0F = op := by
  interval_cases op <;> decide

theorem readBytes_exact (l1 l2 : List Nat) :
    readBytes l1.length (l1 ++ l2) = some (l1, l2) := by
  rw [readBytes, if_neg (by simp)]
  rw [List.take_left, List.drop_left]

theorem beVal_be16 (n : Nat) (h : n < 2 ^ 16) : beVal (be16 n) = n := by
  simp only [be16, beVal, List.foldl]
  omega

theorem beVal_be64 (n : Nat) (h : n < 2 ^ 64) : beVal (be64 n) = n := by
  simp only [be64, beVal, List.foldl]
  omega

/-- C4: encoding any frame whose opcode fits in four bits (in particular the
six defined opcodes) and whose payload length fits in an int64-sized count
with writeFrame, then decoding the produced bytes with readFrame, reproduces
the opcode and the payload byte-for-byte, consumes exactly the frame, and
succeeds — which also shows the encoded FIN flag is set, since readFrame
rejects frames with a clear FIN bit. -/
theorem C4_frame_roundtrip (opcode : Nat) (payload rest : List Nat)
    (hop : opcode < 16) (hlen : payload.length < 2 ^ 64) :
    readFrame (writeFrame opcode payload ++ rest) = some (opcode, payload, rest) := by
  have hfin2 : ((0x80 ||| (opcode &&& 0x0F)) &&& 0x80 ≠ 0) = True := by
    rw [first_byte_land_high opcode hop]
    decide
  rw [writeFrame]
  by_cases h1 : payload.length < 126
  · rw [if_pos h1]
    have hl7 : payload.length &&& 0x7F = payload.length := land127_of_lt _ (by omega)
    have hl8 : payload.length &&& 0x80 = 0 := land128_of_lt _ (by omega)
    simp only [List.cons_append, readFrame, readLen, hl7, hl8]
    rw [if_neg (by omega : ¬ payload.length = 126)]
    rw [if_neg (by omega : ¬ payload.length = 127)]
    simp only [ne_eq, decide_not]
    norm_num
    rw [readBytes_exact]
    rw [first_byte_land_low opcode hop]
    rw [first_byte_land_high opcode hop]
    norm_num
  · rw [if_neg h1]
    by_cases h2 : payload.length ≤ 65535
    · rw [if_pos h2]
      have hm : payload.length % 65536 = payload.length := Nat.mod_eq_of_lt (by omega)
      have e1 : (126 : Nat) &&& 127 = 126 := by decide
      have e2 : (126 : Nat) &&& 128 = 0 := by decide
      have hv : beVal (be16 (payload.length % 65536)) = payload.length := by
        rw [beVal_be16 _ (by omega)]
        exact hm
      simp only [List.cons_append, readFrame, readLen, e1, e2]
      norm_num
      rw [show (2 : Nat) = (be16 (payload.length % 65536)).length from rfl]
      rw [readBytes_exact]
      simp only [hv]
      rw [readBytes_exact]
      simp only [first_byte_land_low opcode hop]
      rw [first_byte_land_high opcode hop]
      norm_num
    · rw [if_neg h2]
      have hm : payload.length % 18446744073709551616 = payload.length :=
        Nat.mod_eq_of_lt (by omega)
      have e1 : (127 : Nat) &&& 127 = 127 := by decide
      have e2 : (127 : Nat) &&& 128 = 0 := by decide
      have hv : beVal (be64 (payload.length % 18446744073709551616)) = payload.length := by
        rw [beVal_be64 _ (by omega)]
        exact hm
      simp only [List.cons_append, readFrame, readLen, e1, e2]
      norm_num
      rw [show (8 : Nat) = (be64 (payload.length % 18446744073709551616)).length from rfl]
      rw [readBytes_exact]
      simp only [hv]
      rw [readBytes_exact]
      simp only [first_byte_land_low opcode hop]
      rw [first_byte_land_high opcode hop]
      norm_num

end Draupnir

namespace Draupnir

/-- Witness for C4: a text frame with a two-byte payload and a one-byte
remainder of the stream. -/
theorem C4_frame_roundtrip_witness :
    (1 : Nat) < 16 ∧ ([7, 8] : List Nat).length < 2 ^ 64 ∧
    readFrame (writeFrame 1 [7, 8] ++ [9]) = some (1, [7, 8], [9]) :=
  ⟨by decide, by decide, C4_frame_roundtrip 1 [7, 8] [9] (by decide) (by decide)⟩

end Draupnir
namespace Draupnir

/-! ## generateAcceptKey (src/ws.go lines 322-329)

The Go function is base64(SHA-1(key ++ GUID)) over the byte string of the
key; `crypto/sha1` (FIPS 180-1) and `encoding/base64.StdEncoding` are
embedded below over byte lists, with 32-bit words as naturals reduced mod
2 ^ 32. -/

/-- 32-bit left rotation. -/
def rotl32 (x s : Nat) : Nat :=
  ((x <<< s) ||| (x >>> (32 - s))) % 2 ^ 32

/-- Big-endian 32-bit word of a byte quadruple stream. -/
def toWords : List Nat → List Nat
  | b0 :: b1 :: b2 :: b3 :: rest =>
    (((b0 * 256 + b1) * 256 + b2) * 256 + b3) :: toWords rest
  | _ => []

/-- SHA-1 message-schedule extension from 16 to 80 words. -/
def sha1Extend : Nat → List Nat → List Nat
  | 0, w => w
  | k + 1, w =>
    sha1Extend k
      (w ++ [rotl32 (w.getD (w.length - 3) 0 ^^^ w.getD (w.length - 8) 0
          ^^^ w.getD (w.length - 14) 0 ^^^ w.getD (w.length - 16) 0) 1])

/-- SHA-1 round function. -/
def sha1F (t b c d : Nat) : Nat :=
  if t < 20 then (b &&& c) ||| ((b ^^^ 0xFFFFFFFF) &&& d)
  else if t < 40 then b ^^^ c ^^^ d
  else if t < 60 then (b &&& c) ||| (b &&& d) ||| (c &&& d)
  else b ^^^ c ^^^ d

/-- SHA-1 round constants. -/
def sha1K (t : Nat) : Nat :=
  if t < 20 then 0x5A827999
  else if t < 40 then 0x6ED9EBA1
  else if t < 60 then 0x8F1BBCDC
  else 0xCA62C1D6

/-- The 80 SHA-1 rounds over the extended schedule. -/
def sha1Rounds : Nat → List Nat → Nat × Nat × Nat × Nat × Nat → Nat × Nat × Nat × Nat × Nat
  | _, [], st => st
  | t, wt :: ws, (a, b, c, d, e) =>
    let temp := (rotl32 a 5 + sha1F t b c d + e + sha1K t + wt) % 2 ^ 32
    sha1Rounds (t + 1) ws (temp, a, rotl32 b 30, c, d)

/-- One 64-byte SHA-1 chunk folded into the running state. -/
def sha1Chunk (chunk : List Nat) (h : Nat × Nat × Nat × Nat × Nat) :
    Nat × Nat × Nat × Nat × Nat :=
  match sha1Rounds 0 (sha1Extend 64 (toWords chunk)) h with
  | (a, b, c, d, e) =>
    match h with
    | (h0, h1, h2, h3, h4) =>
      ((h0 + a) % 2 ^ 32, (h1 + b) % 2 ^ 32, (h2 + c) % 2 ^ 32,
       (h3 + d) % 2 ^ 32, (h4 + e) % 2 ^ 32)

/-- Chunk loop, driven by the (exact) chunk count of the padded message. -/
def sha1ProcessFuel : Nat → List Nat → Nat × Nat × Nat × Nat × Nat →
    Nat × Nat × Nat × Nat × Nat
  | 0, _, h => h
  | f + 1, bytes, h => sha1ProcessFuel f (bytes.drop 64) (sha1Chunk (bytes.take 64) h)

/-- Big-endian 32-bit serialisation. -/
def be32 (n : Nat) : List Nat :=
  [n / 2 ^ 24 % 256, n / 2 ^ 16 % 256, n / 2 ^ 8 % 256, n % 256]

/-- SHA-1 padding: 0x80, zeros to 56 mod 64, then the bit length. -/
def sha1Pad (msg : List Nat) : List Nat :=
  msg ++ 0x80 :: List.replicate ((119 - msg.length % 64) % 64) 0
    ++ be64 (msg.length * 8)

/-- SHA-1 digest (crypto/sha1) of a byte string. -/
def sha1 (msg : List Nat) : List Nat :=
  match sha1ProcessFuel ((sha1Pad msg).length / 64) (sha1Pad msg)
      (0x67452301, 0xEFCDAB89, 0x98BADCFE, 0x10325476, 0xC3D2E1F0) with
  | (h0, h1, h2, h3, h4) => be32 h0 ++ be32 h1 ++ be32 h2 ++ be32 h3 ++ be32 h4

/-- The standard base64 alphabet of `encoding/base64.StdEncoding`. -/
def base64Table : List Nat :=
  strBytes (chars ("ABCDEFGHIJKLMNOPQRSTUVWXYZabcdefghijklmnopqrstuvwxyz0123456789+/"))

/-- Standard base64 encoding with `=` padding. -/
def base64Encode : List Nat → List Nat
  | b0 :: b1 :: b2 :: rest =>
    let n := (b0 * 256 + b1) * 256 + b2
    base64Table.getD (n / 2 ^ 18 % 64) 0 :: base64Table.getD (n / 2 ^ 12 % 64) 0
      :: base64Table.getD (n / 2 ^ 6 % 64) 0 :: base64Table.getD (n % 64) 0
      :: base64Encode rest
  | [b0, b1] =>
    let n := (b0 * 256 + b1) * 256
    [base64Table.getD (n / 2 ^ 18 % 64) 0, base64Table.getD (n / 2 ^ 12 % 64) 0,
     base64Table.getD (n / 2 ^ 6 % 64) 0, 61]
  | [b0] =>
    let n := b0 * 256 * 256
    [base64Table.getD (n / 2 ^ 18 % 64) 0, base64Table.getD (n / 2 ^ 12 % 64) 0,
     61, 61]
  | [] => []

/-- The fixed GUID of `generateAcceptKey` (RFC 6455). -/
def webSocketGUID : List Nat :=
  strBytes (chars ("258EAFA5-E914-47DA-95CA-C5AB0DC85B11"))

/-- `generateAcceptKey` (ws.go lines 322-329): base64 of SHA-1 of the key
concatenated with the GUID. -/
def generateAcceptKey (key : List Nat) : List Nat :=
  base64Encode (sha1 (key ++ webSocketGUID))

set_option maxRecDepth 100000 in
/-- C5: on the RFC 6455 sample nonce, generateAcceptKey produces exactly the
RFC 6455 accept token, i.e. base64(SHA-1(key ++ GUID)) at the published test
vector. -/
theorem C5_accept_key_test_vector :
    generateAcceptKey (strBytes (chars ("dGhlIHNhbXBsZSBub25jZQ==")))
      = strBytes (chars ("s3pPLMBiTxaQ9kYGzzhZRbK+xOo=")) := by
  decide

end Draupnir
namespace Draupnir

/-! ## WebSocket connection lifecycle (src/ws.go lines 18-26, 142-198, 332-423)

The two mutexes serialise `Send`/`Close` and the pump transitions, so the
connection is embedded as a state with one function per serialised
operation.  Channels are embedded as a closed flag plus a buffered-element
count (both `SendChan` and `ReceiveChan` are created with capacity 256);
`netConn.Close()` is counted in `released`; the `sync.Once` ticket of
`closeOnce` is the `onceDone` flag. -/

def OpContinuation : Nat := 0x0
def OpText : Nat := 0x1
def OpBinary : Nat := 0x2
def OpClose : Nat := 0x8
def OpPing : Nat := 0x9
def OpPong : Nat := 0xA

/-- Combined state of a `WebSocketConn` and its inner
`websocketConnection`. -/
structure WebSocketConn : Type where
  Closed : Bool
  sendChanClosed : Bool
  sendBuf : Nat
  receiveChanClosed : Bool
  recvBuf : Nat
  isClosed : Bool
  closeChanClosed : Bool
  onceDone : Bool
  released : Nat
deriving DecidableEq

/-- The state of a connection as created by `WEBSOCKET` (ws.go lines
217-222): open, empty channels, raw stream held. -/
def openConn : WebSocketConn :=
  ⟨false, false, 0, false, 0, false, false, false, 0⟩

/-- `websocketConnection.close` (ws.go lines 412-423): guarded by `isClosed`
and by `closeOnce`, closes `closeChan`, marks `isClosed` and releases the
raw stream. -/
def websocketConnectionClose (s : WebSocketConn) : WebSocketConn :=
  if ¬ s.isClosed then
    if ¬ s.onceDone then
      { s with closeChanClosed := true, isClosed := true, onceDone := true,
               released := s.released + 1 }
    else s
  else s

/-- `WebSocketConn.Close` (ws.go lines 187-198): marks `Closed`, closes
`SendChan`, and closes the inner connection. -/
def WebSocketConn.Close (s : WebSocketConn) : WebSocketConn :=
  if ¬ s.Closed then
    websocketConnectionClose { s with Closed := true, sendChanClosed := true }
  else s

/-- `WebSocketConn.Send` (ws.go lines 170-184): error once `Closed`, else a
non-blocking buffered send that errors when the buffer is full. -/
def WebSocketConn.Send (s : WebSocketConn) : WebSocketConn × Option (List Char) :=
  if s.Closed then (s, some (chars ("connection closed")))
  else if s.sendBuf < 256 then ({ s with sendBuf := s.sendBuf + 1 }, none)
  else (s, some (chars ("send buffer full")))

/-- What one iteration of `readPump` observes from the stream. -/
inductive ReadEvent : Type where
  | readError : ReadEvent
  | frame (opcode : Nat) (payload : List Nat) : ReadEvent
deriving DecidableEq

/-- The frame dispatch of one `readPump` iteration (ws.go lines 340-371),
with the deferred `wsc.Close()` applied on every returning path; the second
component is true when the pump returns.  A text or binary payload is
delivered to `ReceiveChan` when the buffer has room and dropped otherwise;
a ping answers with a pong; a close frame calls `wsc.Close()` and
returns. -/
def readPumpFrame (s : WebSocketConn) : ReadEvent → WebSocketConn × Bool
  | ReadEvent.readError => (s.Close, true)
  | ReadEvent.frame opcode _ =>
    if opcode = OpText ∨ opcode = OpBinary then
      (if s.recvBuf < 256 then { s with recvBuf := s.recvBuf + 1 } else s, false)
    else if opcode = OpPing then (s, false)
    else if opcode = OpPong then (s, false)
    else if opcode = OpClose then (s.Close.Close, true)
    else (s, false)

/-- One iteration of `readPump` (ws.go lines 332-373): the select exits when
`closeChan` is already closed, else the next read outcome is dispatched. -/
def readPumpStep (s : WebSocketConn) (ev : ReadEvent) : WebSocketConn × Bool :=
  if s.closeChanClosed then (s.Close, true)
  else readPumpFrame s ev

/-- A serialised operation on the connection: a handler `Send`, a handler
(or pump-exit) `Close`, or one read-pump iteration. -/
inductive WsOp : Type where
  | send : WsOp
  | close : WsOp
  | pump (ev : ReadEvent) : WsOp
deriving DecidableEq

def wsStep (s : WebSocketConn) (op : WsOp) : WebSocketConn :=
  match op with
  | WsOp.send => (s.Send).1
  | WsOp.close => s.Close
  | WsOp.pump ev => (readPumpStep s ev).1

theorem close_receiveChan (s : WebSocketConn) :
    (s.Close).receiveChanClosed = s.receiveChanClosed := by
  rw [WebSocketConn.Close, websocketConnectionClose]
  split_ifs <;> rfl

theorem wsStep_receiveChan (op : WsOp) (s : WebSocketConn) :
    (wsStep s op).receiveChanClosed = s.receiveChanClosed := by
  cases op with
  | send =>
    rw [wsStep, WebSocketConn.Send]
    split_ifs <;> rfl
  | close => exact close_receiveChan s
  | pump ev =>
    cases ev with
    | readError =>
      rw [wsStep, readPumpStep, readPumpFrame]
      split_ifs <;> exact close_receiveChan s
    | frame opcode payload =>
      rw [wsStep, readPumpStep, readPumpFrame]
      split_ifs <;>
        first
          | rfl
          | exact close_receiveChan s
          | rw [close_receiveChan, close_receiveChan]

theorem foldl_receiveChan (ops : List WsOp) :
    ∀ s : WebSocketConn,
      (List.foldl wsStep s ops).receiveChanClosed = s.receiveChanClosed := by
  induction ops with
  | nil => intro s; rfl
  | cons op ops ih =>
    intro s
    rw [List.foldl_cons, ih (wsStep s op), wsStep_receiveChan]

/-- C6: on an open connection a received close frame does stop the pump,
mark the connection Closed and release the raw stream exactly once — but no
operation sequence ever closes ReceiveChan, so the handler's inbound message
sequence never ends: a handler ranging over ReceiveChan blocks forever
instead of observing closure of its message queue. -/
theorem C6_receive_chan_never_closed (ops : List WsOp) :
    ((readPumpStep openConn (ReadEvent.frame OpClose [])).1.Closed = true ∧
     (readPumpStep openConn (ReadEvent.frame OpClose [])).1.released = 1 ∧
     (readPumpStep openConn (ReadEvent.frame OpClose [])).2 = true) ∧
    (List.foldl wsStep openConn ops).receiveChanClosed = false :=
  ⟨by decide, foldl_receiveChan ops openConn⟩

theorem close_Closed (s : WebSocketConn) : (s.Close).Closed = true := by
  rw [WebSocketConn.Close, websocketConnectionClose]
  split_ifs with h1 h2 h3 <;> first | rfl | simpa using h1

/-- The release bookkeeping invariant: the once-ticket tracks `isClosed`,
and the stream has been released exactly once when `isClosed` holds and
never otherwise. -/
def RelInv (s : WebSocketConn) : Prop :=
  s.onceDone = s.isClosed ∧ s.released = (if s.isClosed then 1 else 0)

theorem relInv_connClose (s : WebSocketConn) (h : RelInv s) :
    RelInv (websocketConnectionClose s) := by
  obtain ⟨h1, h2⟩ := h
  rw [websocketConnectionClose]
  by_cases hic : s.isClosed = true
  · rw [if_neg (by simpa using hic)]
    exact ⟨h1, h2⟩
  · rw [if_pos hic]
    by_cases hod : s.onceDone = true
    · rw [if_neg (by simpa using hod)]
      exact ⟨h1, h2⟩
    · rw [if_pos hod]
      have h3 : s.released = 0 := by rw [h2, if_neg hic]
      refine ⟨rfl, ?_⟩
      simp [h3]

theorem relInv_close (s : WebSocketConn) (h : RelInv s) : RelInv (s.Close) := by
  rw [WebSocketConn.Close]
  split_ifs with h1
  all_goals first
    | exact h
    | exact relInv_connClose _ ⟨h.1, h.2⟩

theorem relInv_step (op : WsOp) (s : WebSocketConn) (h : RelInv s) :
    RelInv (wsStep s op) := by
  cases op with
  | send =>
    rw [wsStep, WebSocketConn.Send]
    split_ifs <;> first | exact h | exact ⟨h.1, h.2⟩
  | close => exact relInv_close s h
  | pump ev =>
    cases ev with
    | readError =>
      rw [wsStep, readPumpStep, readPumpFrame]
      split_ifs <;> exact relInv_close s h
    | frame opcode payload =>
      rw [wsStep, readPumpStep, readPumpFrame]
      split_ifs <;>
        first
          | exact relInv_close s h
          | exact relInv_close _ (relInv_close s h)
          | exact ⟨h.1, h.2⟩
          | exact h

theorem relInv_foldl (ops : List WsOp) :
    ∀ s : WebSocketConn, RelInv s → RelInv (List.foldl wsStep s ops) := by
  induction ops with
  | nil => intro s h; exact h
  | cons op ops ih => intro s h; exact ih (wsStep s op) (relInv_step op s h)

theorem isClosed_mono_connClose (s : WebSocketConn) (h : s.isClosed = true) :
    (websocketConnectionClose s).isClosed = true := by
  rw [websocketConnectionClose]
  split_ifs <;> first | rfl | exact h

theorem isClosed_mono_close (s : WebSocketConn) (h : s.isClosed = true) :
    (s.Close).isClosed = true := by
  rw [WebSocketConn.Close]
  split_ifs with h1
  all_goals first
    | exact h
    | exact isClosed_mono_connClose _ h

theorem isClosed_mono_step (op : WsOp) (s : WebSocketConn) (h : s.isClosed = true) :
    (wsStep s op).isClosed = true := by
  cases op with
  | send =>
    rw [wsStep, WebSocketConn.Send]
    split_ifs <;> exact h
  | close => exact isClosed_mono_close s h
  | pump ev =>
    cases ev with
    | readError =>
      rw [wsStep, readPumpStep, readPumpFrame]
      split_ifs <;> exact isClosed_mono_close s h
    | frame opcode payload =>
      rw [wsStep, readPumpStep, readPumpFrame]
      split_ifs <;>
        first
          | exact isClosed_mono_close s h
          | exact isClosed_mono_close _ (isClosed_mono_close s h)
          | exact h

theorem isClosed_mono_foldl (ops : List WsOp) :
    ∀ s : WebSocketConn, s.isClosed = true →
      (List.foldl wsStep s ops).isClosed = true := by
  induction ops with
  | nil => intro s h; exact h
  | cons op ops ih => intro s h; exact ih (wsStep s op) (isClosed_mono_step op s h)

theorem closed_mono_step (op : WsOp) (s : WebSocketConn) (h : s.Closed = true) :
    (wsStep s op).Closed = true := by
  cases op with
  | send =>
    rw [wsStep, WebSocketConn.Send]
    split_ifs <;> exact h
  | close => exact close_Closed s
  | pump ev =>
    cases ev with
    | readError =>
      rw [wsStep, readPumpStep, readPumpFrame]
      split_ifs <;> exact close_Closed s
    | frame opcode payload =>
      rw [wsStep, readPumpStep, readPumpFrame]
      split_ifs <;> first | exact close_Closed _ | exact h

theorem closed_mono_foldl (ops : List WsOp) :
    ∀ s : WebSocketConn, s.Closed = true →
      (List.foldl wsStep s ops).Closed = true := by
  induction ops with
  | nil => intro s h; exact h
  | cons op ops ih => intro s h; exact ih (wsStep s op) (closed_mono_step op s h)

/-- C9: once the Closed flag is true, Send is rejected with an error and
Closed stays true under every further serialised operation sequence; and
starting from a fresh connection the raw stream is released exactly once
after the first Close no matter what operations follow, and never more than
once in any case (idempotent close). -/
theorem C9_closed_send_rejected_single_release (ops : List WsOp)
    (s : WebSocketConn) (h : s.Closed = true) :
    (s.Send).2 ≠ none ∧
    (List.foldl wsStep s ops).Closed = true ∧
    (List.foldl wsStep (openConn.Close) ops).released = 1 ∧
    (List.foldl wsStep openConn ops).released ≤ 1 := by
  refine ⟨?_, closed_mono_foldl ops s h, ?_, ?_⟩
  · rw [WebSocketConn.Send, if_pos h]
    simp
  · have h1 : RelInv (openConn.Close) := relInv_close openConn ⟨rfl, rfl⟩
    have h2 : (openConn.Close).isClosed = true := by decide
    have h3 := relInv_foldl ops (openConn.Close) h1
    rw [h3.2, if_pos (by simpa using isClosed_mono_foldl ops (openConn.Close) h2)]
  · have h3 := relInv_foldl ops openConn ⟨rfl, rfl⟩
    rw [h3.2]
    split_ifs <;> omega

/-- Witness for C9 on a freshly closed connection followed by a second
Close and a Send. -/
theorem C9_closed_send_rejected_single_release_witness :
    (openConn.Close).Closed = true ∧
    ((openConn.Close).Send.2 ≠ none ∧
     (List.foldl wsStep (openConn.Close) [WsOp.close, WsOp.send]).Closed = true ∧
     (List.foldl wsStep (openConn.Close) [WsOp.close, WsOp.send]).released = 1 ∧
     (List.foldl wsStep openConn [WsOp.close, WsOp.send]).released ≤ 1) :=
  ⟨by decide,
   C9_closed_send_rejected_single_release [WsOp.close, WsOp.send]
     (openConn.Close) (by decide)⟩

end Draupnir
